import Mathlib

set_option autoImplicit false

/-!
Shallow embedding of the retrieval-and-snippet-assembly engine of the
wannabe-starchive backend (`src/backend/src/services/search_service.rs` and
`src/backend/src/utils.rs`).

Modelling conventions:
* Rust strings are modelled as `List Char` (`Str`): every index below is a
  character (code point) index.  Rust's `str::find` returns a byte offset
  which the source immediately converts to character counts before any
  arithmetic, so a character-indexed `findSub` is an exact model; lexicographic
  byte order over UTF-8 equals lexicographic code-point order, so `lexCmp`
  over `Str` matches Rust's `String::cmp`.
* `f64` values (scores, times) enter the program only from parsed JSON, which
  cannot contain NaN or infinities, and are only compared or added to small
  constants, so they are modelled as `ℚ`.
* The single `f32` computation (`total_pages`) is modelled by an explicit
  round-to-nearest-even model `roundF32` over `ℚ` (exponent over/underflow is
  not modelled; every value appearing in the development is far inside the
  normal `f32` range).
* The Elasticsearch collaborator is abstracted as data: request bodies are
  built as explicit `Json` values exactly as the `json!` literals in the
  source, and responses/sub-calls are inputs (`SearchDeps`) of the pipeline.
-/

abbrev Str : Type := List Char

namespace Starchive

/-! ### Basic string operations (models of Rust `str` operations) -/

/-- `leads pat s` models Rust `s.starts_with(pat)`. -/
def leads : Str → Str → Bool
  | [], _ => true
  | _ :: _, [] => false
  | p :: ps, c :: cs => p == c && leads ps cs

/-- Character index of the first occurrence of `pat` in `s`
(model of Rust `str::find` with the byte offset converted to a char count). -/
def findSub (pat : Str) : Str → Option Nat
  | [] => if leads pat [] then some 0 else none
  | c :: cs => if leads pat (c :: cs) then some 0 else (findSub pat (c :: cs).tail).map (· + 1)

/-- Number of (possibly overlapping) start positions of `pat` inside `s`. -/
def countOccs (pat : Str) : Str → Nat
  | [] => 0
  | c :: cs => (if leads pat (c :: cs) then 1 else 0) + countOccs pat cs

/-- Whitespace as tested by Rust `char::is_whitespace` on the characters this
program produces (ASCII text plus `…`). -/
def wsChar (c : Char) : Bool :=
  c == ' ' || c == '\t' || c == '\n' || c == '\r'

/-- Model of Rust `str::trim_start`. -/
def trimStart (s : Str) : Str := s.dropWhile wsChar

/-- Model of Rust `str::trim_end`. -/
def trimEnd (s : Str) : Str := (s.reverse.dropWhile wsChar).reverse

/-- Model of Rust `str::trim`. -/
def trim (s : Str) : Str := trimEnd (trimStart s)

/-- Model of Rust `str::replace` (all non-overlapping occurrences, scanned
left to right), structured on a fuel argument so that it is structurally
recursive; each step consumes at least one character, so fuel `s.length`
never runs out.  The pattern is passed as head and tail so that it is
syntactically non-empty. -/
def replaceAllFuel (p : Char) (ps : Str) (rep : Str) : Nat → Str → Str
  | 0, s => s
  | _ + 1, [] => []
  | fuel + 1, c :: cs =>
    if leads (p :: ps) (c :: cs) then rep ++ replaceAllFuel p ps rep fuel (cs.drop ps.length)
    else c :: replaceAllFuel p ps rep fuel cs

/-- Rust `str::replace`. -/
def replaceAll (p : Char) (ps : Str) (rep : Str) (s : Str) : Str :=
  replaceAllFuel p ps rep s.length s

/-! ### Data model (`models.rs` / `search_service.rs`) -/

structure Caption where
  video_id : Str
  text : Str
  start_time : ℚ
  end_time : ℚ
deriving Repr, DecidableEq

structure SearchResult where
  video_id : Str
  start_time : ℚ
  end_time : ℚ
  snippet_html : Str
deriving Repr, DecidableEq

structure SearchResponse where
  results : List SearchResult
  total_videos : Nat
  total_captions : Nat
  page : Nat
  page_size : Nat
  total_pages : Nat
deriving Repr, DecidableEq

inductive SortBy where
  | Relevance
  | UploadDate
  | Duration
  | Views
  | Likes
  | CaptionMatches
deriving Repr, DecidableEq

inductive SortOrder where
  | Asc
  | Desc
deriving Repr, DecidableEq

inductive SearchType where
  | Natural
  | Wide
deriving Repr, DecidableEq

structure SearchOptions where
  search_type : SearchType
  fuzzy_distance : Option String
  sort_by : SortBy
  sort_order : SortOrder
deriving Repr, DecidableEq

/-- `SearchOptions::natural` (the `info!` logging is dropped). -/
def SearchOptions.natural (sb : SortBy) (so : SortOrder) : SearchOptions :=
  { search_type := .Natural, fuzzy_distance := none, sort_by := sb, sort_order := so }

/-- `SearchOptions::wide` (the `info!` logging is dropped). -/
def SearchOptions.wide (sb : SortBy) (so : SortOrder) : SearchOptions :=
  { search_type := .Wide, fuzzy_distance := some "AUTO", sort_by := sb, sort_order := so }

/-- Per-video sort record built by `get_paginated_video_ids`. -/
structure VideoSortData where
  video_id : Str
  avg_score : ℚ
  max_score : ℚ
  match_count : ℤ
  upload_date : ℤ
  duration : ℤ
  views : ℚ
  likes : ℚ
deriving Repr, DecidableEq

/-! ### Constants of `search_service.rs` -/

def PRE_TAG : Str := "<strong>".data

def POST_TAG : Str := "</strong>".data

def MAX_COMBINED_CHARS : Nat := 800

def DEFAULT_NEIGHBORS_BEFORE : Nat := 2

def DEFAULT_NEIGHBORS_AFTER : Nat := 2

/-! ### `clean_caption_text`, `join_neighbor_text`, `stitch_with_neighbors_enhanced` -/

/-- `clean_caption_text`: trim, then collapse double spaces and fix spacing
before `, . ? !` (in the source's replacement order). -/
def cleanCaptionText (s : Str) : Str :=
  replaceAll ' ' ['!'] ['!']
    (replaceAll ' ' ['?'] ['?']
      (replaceAll ' ' ['.'] ['.']
        (replaceAll ' ' [','] [',']
          (replaceAll ' ' [' '] [' '] (trim s)))))

/-- `join_neighbor_text`: clean each neighbor caption, drop blank ones, join
with single spaces. -/
def joinNeighborText (caps : List Caption) : Str :=
  List.intercalate [' ']
    (((caps.map (fun d => cleanCaptionText d.text))).filter (fun s => !(trim s).isEmpty))

/-- Rust `s.ends_with(&[c₁, …][..])`: the last char is in the set. -/
def endsWithAny (set : List Char) (s : Str) : Bool :=
  match s.getLast? with
  | some c => set.contains c
  | none => false

/-- Rust `s.starts_with(&[c₁, …][..])`: the first char is in the set. -/
def startsWithAny (set : List Char) (s : Str) : Bool :=
  match s.head? with
  | some c => set.contains c
  | none => false

/-- `stitch_with_neighbors_enhanced` (source lines 801–827): build the parts
vector and join with single spaces.  Note the source *prepends* the ellipsis
to the prev block and *appends* it to the next block. -/
def stitchWithNeighborsEnhanced (prev anchorHtml next : Str) : Str :=
  let partsP : List Str :=
    if prev.isEmpty then []
    else
      let prevClean := cleanCaptionText prev
      if endsWithAny ['.', '!', '?', ':'] prevClean then [prevClean]
      else ['…' :: prevClean]
  let partsN : List Str :=
    if next.isEmpty then []
    else
      let nextClean := cleanCaptionText next
      if startsWithAny ['.', ',', '!', '?', ':'] nextClean then [nextClean]
      else [nextClean ++ ['…']]
  List.intercalate [' '] (partsP ++ [cleanCaptionText anchorHtml] ++ partsN)

/-! ### `truncate_around_highlight` (source lines 829–927) -/

def isSentChar (c : Char) : Bool := c == '.' || c == '!' || c == '?'

def isSpaceChar (c : Char) : Bool := c == ' '

/-- `i < s_chars.len() && p(s_chars[i])` as one test. -/
def hitAt (p : Char → Bool) (s : Str) (i : Nat) : Bool :=
  match s.get? i with
  | some c => p c
  | none => false

/-- Model of `for i in (0..=k).rev() { if p(s[i]) { return i } }`. -/
def findBack (p : Char → Bool) (s : Str) : Nat → Option Nat
  | 0 => if hitAt p s 0 then some 0 else none
  | k + 1 => if hitAt p s (k + 1) then some (k + 1) else findBack p s k

/-- Scan `fuel` positions upward from `lo` for a hit. -/
def findFwdFrom (p : Char → Bool) (s : Str) : Nat → Nat → Option Nat
  | _, 0 => none
  | lo, fuel + 1 => if hitAt p s lo then some lo else findFwdFrom p s (lo + 1) fuel

/-- Model of `for i in lo..=hi { if p(s[i]) { return i } }`. -/
def findFwd (p : Char → Bool) (s : Str) (lo hi : Nat) : Option Nat :=
  findFwdFrom p s lo (hi + 1 - lo)

/-- The budget computation of `truncate_around_highlight` (lines 847–869):
from the total length, the budget and the highlight span, produce
`(start_char, end_char)`.  All subtractions are `Nat` subtractions, matching
the source's `saturating_sub` / guarded subtractions. -/
def computeCuts (total maxChars hlStart hlEnd : Nat) : Nat × Nat :=
  let hlChars := hlEnd - hlStart
  let remaining := maxChars - hlChars
  let side := remaining / 2
  let prefTake0 := min (side + 20) hlStart
  let suffTake0 := min (side + 20) (total - hlEnd)
  let totalTake := prefTake0 + hlChars + suffTake0
  let extra := maxChars - totalTake
  let prefTake :=
    if totalTake < maxChars ∧ prefTake0 < hlStart then
      prefTake0 + min (hlStart - prefTake0) (extra / 2)
    else prefTake0
  let suffTake :=
    if totalTake < maxChars ∧ suffTake0 < total - hlEnd then
      suffTake0 + min (total - hlEnd - suffTake0) (extra / 2)
    else suffTake0
  (hlStart - prefTake, min (hlEnd + suffTake) total)

/-- Boundary adjustment of the start cut (lines 875–891).  The source's
look-behind window bound `start_char.min(start_char + 30)` is a no-op, so the
backward scans run all the way to index 0. -/
def adjustStart (s : Str) (startChar total : Nat) : Nat :=
  if 0 < startChar then
    let a1 :=
      match findBack isSentChar s startChar with
      | some i => min (i + 1) (total - 1)
      | none => startChar
    if a1 = startChar then
      match findBack isSpaceChar s startChar with
      | some i => i + 1
      | none => startChar
    else a1
  else startChar

/-- Boundary adjustment of the end cut (lines 893–909). -/
def adjustEnd (s : Str) (endChar total : Nat) : Nat :=
  if endChar < total then
    let e1 :=
      match findFwd isSentChar s endChar (min (endChar + 30) (total - 1)) with
      | some i => min (i + 1) total
      | none => endChar
    if e1 = endChar then
      match findFwd isSpaceChar s endChar (min (endChar + 20) (total - 1)) with
      | some i => i
      | none => endChar
    else e1
  else endChar

/-- The no-highlight fallback (lines 925–926): head truncation plus ellipsis. -/
def fallbackHead (s : Str) (maxChars : Nat) : Str :=
  trimEnd (s.take (maxChars - 2)) ++ ['…']

/-- The highlight-found branch of `truncate_around_highlight` (lines
840–921): compute the cuts, adjust them to boundaries, slice, and add an
ellipsis on each side that was actually cut. -/
def truncCore (s : Str) (maxChars hlStart hlEnd : Nat) : Str :=
  let cuts := computeCuts s.length maxChars hlStart hlEnd
  let actualStart := adjustStart s cuts.1 s.length
  let actualEnd := adjustEnd s cuts.2 s.length
  let trimmed := (s.drop actualStart).take (actualEnd - actualStart)
  let withE := if 0 < actualStart then '…' :: trimStart trimmed else trimmed
  if actualEnd < s.length then trimEnd withE ++ ['…'] else withE

/-- `truncate_around_highlight` (lines 829–927). -/
def truncateAroundHighlight (s : Str) (maxChars : Nat) (preTag postTag : Str) : Str :=
  if s.length ≤ maxChars then s
  else
    match findSub preTag s with
    | some preIdx =>
      match findSub postTag (s.drop (preIdx + preTag.length)) with
      | some relIdx =>
        truncCore s maxChars preIdx (preIdx + preTag.length + relIdx + postTag.length)
      | none => fallbackHead s maxChars
    | none => fallbackHead s maxChars

/-! ### Comparators (`utils.rs` lines 51–59 and the sort of
`get_paginated_video_ids`, lines 275–330) -/

/-- `f64::partial_cmp` + `unwrap_or(Equal)` on values that are never NaN. -/
def qCmp (a b : ℚ) : Ordering :=
  if a < b then .lt else if b < a then .gt else .eq

/-- `utils::compare_with_order_float`. -/
def compareWithOrderFloat (a b : ℚ) (order : SortOrder) : Ordering :=
  match order with
  | .Asc => qCmp a b
  | .Desc => qCmp b a

/-- `utils::compare_with_order_int` (the `i64 → f64` cast is exact for every
value this program produces; modelled as the exact cast `ℤ → ℚ`). -/
def compareWithOrderInt (a b : ℤ) (order : SortOrder) : Ordering :=
  compareWithOrderFloat a b order

/-- Rust `char` comparison (by scalar value). -/
def charCmp (a b : Char) : Ordering :=
  if a.toNat < b.toNat then .lt else if b.toNat < a.toNat then .gt else .eq

/-- Rust `String::cmp`: lexicographic. -/
def lexCmp : Str → Str → Ordering
  | [], [] => .eq
  | [], _ :: _ => .lt
  | _ :: _, [] => .gt
  | a :: xs, b :: ys => (charCmp a b).then (lexCmp xs ys)

/-- The comparator passed to `video_data.sort_by` (lines 276–330). -/
def videoCmp (opts : SearchOptions) (a b : VideoSortData) : Ordering :=
  match opts.sort_by with
  | .Relevance =>
    (compareWithOrderFloat a.avg_score b.avg_score opts.sort_order).then
      (lexCmp a.video_id b.video_id)
  | .CaptionMatches =>
    (compareWithOrderFloat a.match_count b.match_count opts.sort_order).then
      ((compareWithOrderFloat a.avg_score b.avg_score .Desc).then
        (lexCmp a.video_id b.video_id))
  | .UploadDate =>
    (compareWithOrderInt a.upload_date b.upload_date opts.sort_order).then
      ((compareWithOrderFloat a.avg_score b.avg_score .Desc).then
        (lexCmp a.video_id b.video_id))
  | .Duration =>
    (compareWithOrderInt a.duration b.duration opts.sort_order).then
      ((compareWithOrderFloat a.avg_score b.avg_score .Desc).then
        (lexCmp a.video_id b.video_id))
  | .Views =>
    (compareWithOrderFloat a.views b.views opts.sort_order).then
      ((compareWithOrderFloat a.avg_score b.avg_score .Desc).then
        (lexCmp a.video_id b.video_id))
  | .Likes =>
    (compareWithOrderFloat a.likes b.likes opts.sort_order).then
      ((compareWithOrderFloat a.avg_score b.avg_score .Desc).then
        (lexCmp a.video_id b.video_id))

/-- The three properties making a comparator a total preorder compatible with
lexicographic chaining: swap-antisymmetry, left-congruence of ties, and
transitivity of strict comparison. -/
def LawCmp {α : Type} (c : α → α → Ordering) : Prop :=
  (∀ a b, c b a = (c a b).swap) ∧
  (∀ a b x, c a b = .eq → c a x = c b x) ∧
  (∀ a b x, c a b = .lt → c b x = .lt → c a x = .lt)

/-- `video_data.sort_by(...)`: a stable sort with `videoCmp`. -/
def sortVideos (opts : SearchOptions) (l : List VideoSortData) : List VideoSortData :=
  l.mergeSort (fun a b => videoCmp opts a b ≠ .gt)

/-- The pagination step of `get_paginated_video_ids` (lines 332–340):
`skip(from).take(size)` over the sorted candidates, projected to ids. -/
def getPaginatedVideoIdsPure (opts : SearchOptions) (videoData : List VideoSortData)
    (fromIdx size : Nat) : List Str :=
  (((sortVideos opts videoData).drop fromIdx).take size).map (fun d => d.video_id)

/-- Exact integer ceiling `⌈a / b⌉` on `Nat`. -/
def ceilDiv (a b : Nat) : Nat := (a + b - 1) / b

/-! ### JSON values and the query builders -/

inductive Json where
  | null
  | bool (b : Bool)
  | num (q : ℚ)
  | str (s : String)
  | arr (items : List Json)
  | obj (fields : List (String × Json))
deriving Repr

def Json.getField : Json → String → Option Json
  | .obj fs, k => fs.lookup k
  | _, _ => none

def Json.getPath : Json → List String → Option Json
  | j, [] => some j
  | j, k :: ks =>
    match j.getField k with
    | some v => v.getPath ks
    | none => none

def Json.asArr : Json → Option (List Json)
  | .arr xs => some xs
  | _ => none

def Json.asStr : Json → Option String
  | .str s => some s
  | _ => none

def Json.asNum : Json → Option ℚ
  | .num q => some q
  | _ => none

/-- serde `as_i64`: an integral number. -/
def Json.asInt : Json → Option ℤ
  | .num q => if q.den = 1 then some q.num else none
  | _ => none

/-- `build_main_query_by_type` (lines 481–586). -/
def buildMainQueryByType (queryString : String) (opts : SearchOptions) : Json :=
  match opts.search_type with
  | .Natural =>
    .obj [("bool", .obj [
      ("should", .arr [
        .obj [("match_phrase", .obj [("text", .obj [
          ("query", .str queryString), ("boost", .num 3)])])],
        .obj [("match_phrase", .obj [("text.stemmed", .obj [
          ("query", .str queryString), ("boost", .num 1), ("slop", .num 0)])])]]),
      ("minimum_should_match", .num 1)])]
  | .Wide =>
    let fuzzySetting := opts.fuzzy_distance.getD "AUTO"
    .obj [("bool", .obj [
      ("should", .arr [
        .obj [("match_phrase", .obj [("text", .obj [
          ("query", .str queryString), ("boost", .num 4)])])],
        .obj [("match_phrase", .obj [("text", .obj [
          ("query", .str queryString), ("slop", .num 3), ("boost", .num 3)])])],
        .obj [("multi_match", .obj [
          ("query", .str queryString),
          ("fields", .arr [.str "text^2", .str "text.stemmed"]),
          ("type", .str "best_fields"), ("operator", .str "and"),
          ("boost", .num (5/2))])],
        .obj [("multi_match", .obj [
          ("query", .str queryString),
          ("fields", .arr [.str "text^1.5", .str "text.stemmed"]),
          ("type", .str "best_fields"), ("operator", .str "and"),
          ("fuzziness", .str fuzzySetting), ("boost", .num 2)])],
        .obj [("multi_match", .obj [
          ("query", .str queryString),
          ("fields", .arr [.str "text", .str "text.stemmed"]),
          ("type", .str "best_fields"), ("operator", .str "or"),
          ("minimum_should_match", .str "75%"), ("boost", .num (3/2))])],
        .obj [("multi_match", .obj [
          ("query", .str queryString),
          ("fields", .arr [.str "text", .str "text.stemmed"]),
          ("type", .str "best_fields"), ("operator", .str "or"),
          ("fuzziness", .str fuzzySetting),
          ("minimum_should_match", .str "50%"), ("boost", .num 1)])]]),
      ("minimum_should_match", .num 1)])]

/-- The aggregation request body of `get_paginated_video_ids` (lines 207–224). -/
def aggQueryBody (mainQuery : Json) : Json :=
  .obj [("size", .num 0), ("query", mainQuery),
    ("aggs", .obj [("unique_videos", .obj [
      ("terms", .obj [("field", .str "video_id"), ("size", .num 10000),
        ("order", .obj [("_key", .str "asc")])]),
      ("aggs", .obj [
        ("max_score", .obj [("max", .obj [("script", .str "_score")])]),
        ("avg_score", .obj [("avg", .obj [("script", .str "_score")])]),
        ("match_count", .obj [("value_count", .obj [("field", .str "video_id")])])])])])]

/-- One bucket of the terms aggregation → `VideoSortData` (lines 243–259). -/
def parseBucket (bucket : Json) : Option VideoSortData :=
  match (bucket.getField "key").bind Json.asStr with
  | none => none
  | some vid =>
    let avg := (((bucket.getField "avg_score").bind (fun j => j.getField "value")).bind
      Json.asNum).getD 0
    let mx := (((bucket.getField "max_score").bind (fun j => j.getField "value")).bind
      Json.asNum).getD 0
    let mc := ((bucket.getField "doc_count").bind Json.asInt).getD 0
    some { video_id := vid.data, avg_score := avg, max_score := mx, match_count := mc,
           upload_date := 0, duration := 0, views := 0, likes := 0 }

/-- `response["aggregations"]["unique_videos"]["buckets"].as_array()
.unwrap_or(&empty_vec)` (lines 236–239). -/
def bucketsOf (resp : Json) : List Json :=
  ((resp.getPath ["aggregations", "unique_videos", "buckets"]).bind Json.asArr).getD []

/-- The candidate extraction of `get_paginated_video_ids` (lines 241–260). -/
def extractVideoData (resp : Json) : List VideoSortData :=
  (bucketsOf resp).filterMap parseBucket

/-- The clauses of the main query's `should` array. -/
def shouldClauses (j : Json) : List Json :=
  ((j.getPath ["bool", "should"]).bind Json.asArr).getD []

/-- The fixed boost attached to one `should` clause. -/
def clauseBoost (c : Json) : Option ℚ :=
  match c.getPath ["match_phrase", "text", "boost"] with
  | some (.num q) => some q
  | _ =>
    match c.getPath ["multi_match", "boost"] with
    | some (.num q) => some q
    | _ => none

/-! ### `fetch_neighbors_for_hit`: the pure core (lines 689–735) -/

/-- Rust slice `l[i..j]`. -/
def slice (l : List Caption) (i j : Nat) : List Caption := (l.drop i).take (j - i)

/-- The neighbor selection of `fetch_neighbors_for_hit` applied to the window
result (already parsed and sorted by the index): lines 691–735. -/
def fetchNeighborsCore (allCaptions : List Caption) (anchorStart anchorEnd : ℚ)
    (before after : Nat) : List Caption × List Caption :=
  let anchorIndex := allCaptions.findIdx? (fun c => |c.start_time - anchorStart| < 1/10)
  match anchorIndex with
  | some anchorIdx =>
    let prevStart := anchorIdx - before
    let prevCaptions := slice allCaptions prevStart anchorIdx
    let nextStart := anchorIdx + 1
    let nextEnd := min (nextStart + after) allCaptions.length
    let nextCaptions := slice allCaptions nextStart nextEnd
    (prevCaptions, nextCaptions)
  | none =>
    let prevCaptions := allCaptions.filter (fun c => c.start_time < anchorStart)
    let nextCaptions := allCaptions.filter (fun c => anchorEnd < c.start_time)
    let prevCaptions :=
      if before < prevCaptions.length then prevCaptions.drop (prevCaptions.length - before)
      else prevCaptions
    let nextCaptions :=
      if after < nextCaptions.length then nextCaptions.take after else nextCaptions
    (prevCaptions, nextCaptions)

/-! ### The `f32` model and `total_pages` (line 140) -/

/-- Round a rational to the nearest integer, ties to even. -/
def roundHalfEven (q : ℚ) : ℤ :=
  if q - ⌊q⌋ < 1/2 then ⌊q⌋
  else if 1/2 < q - ⌊q⌋ then ⌊q⌋ + 1
  else if ⌊q⌋ % 2 = 0 then ⌊q⌋ else ⌊q⌋ + 1

/-- The binade exponent of a positive rational: the unique `e` with
`2 ^ e ≤ q < 2 ^ (e + 1)`.  For `q ≥ 1` this is `⌊log₂ ⌊q⌋⌋` (since
`2 ^ e ≤ ⌊q⌋ ≤ q` and `q < ⌊q⌋ + 1 ≤ 2 ^ (e + 1)`); for `0 < q < 1`, with
`k := ⌊log₂ ⌊q⁻¹⌋⌋` one has `2 ^ (-k - 1) < q ≤ 2 ^ (-k)`, so the exponent is
`-k` if `2 ^ (-k) ≤ q` and `-k - 1` otherwise. -/
def f32exp (q : ℚ) : ℤ :=
  if 1 ≤ q then (Nat.log2 (⌊q⌋).toNat : ℤ)
  else if (2 : ℚ) ^ (-(Nat.log2 (⌊q⁻¹⌋).toNat : ℤ)) ≤ q then -(Nat.log2 (⌊q⁻¹⌋).toNat : ℤ)
  else -((Nat.log2 (⌊q⁻¹⌋).toNat : ℤ) + 1)

/-- Round a non-negative rational to the nearest `f32` value
(round-to-nearest, ties-to-even on a 24-bit significand; exponent
over/underflow not modelled). -/
def roundF32 (q : ℚ) : ℚ :=
  if q ≤ 0 then 0
  else (roundHalfEven (q * 2 ^ ((23 : ℤ) - f32exp q)) : ℚ) * 2 ^ (f32exp q - 23)

/-- `(total_videos as f32 / page_size as f32).ceil() as usize` (line 140).
`f32::ceil` of a finite value is exact (any `f32` with a fractional part has
magnitude < 2²³, whose ceiling is representable), so it is modelled by the
exact ceiling.  `page_size = 0` (division by zero, `∞` in `f32`) is outside
the model and mapped to 0; every claim constrains `page_size ≥ 1`. -/
def totalPagesF32 (totalVideos pageSize : Nat) : Nat :=
  if roundF32 pageSize = 0 then 0
  else (⌈roundF32 (roundF32 totalVideos / roundF32 pageSize)⌉).toNat

/-! ### The request pipeline `search_captions_with_pagination` (lines 92–150)

The three Elasticsearch round-trips are inputs: the tuple of sub-call results
a given request would observe.  `anyhow::Error` carries no information the
pipeline inspects, so errors are modelled as `Unit`. -/

structure SearchDeps where
  totalCounts : Except Unit (Nat × Nat)
  pagedVideoIds : Except Unit (List Str)
  captionsFor : Str → Except Unit (List SearchResult)
  neighborsFor : Str → ℚ → ℚ → Nat → Nat → Except Unit (List Caption × List Caption)

/-- Lines 116–138: fetch neighbors (`unwrap_or_default` on failure), stitch,
truncate. -/
def processResultSnippet (deps : SearchDeps) (res : SearchResult) : SearchResult :=
  let pn :=
    match deps.neighborsFor res.video_id res.start_time res.end_time
        DEFAULT_NEIGHBORS_BEFORE DEFAULT_NEIGHBORS_AFTER with
    | .ok pn => pn
    | .error _ => ([], [])
  let prevText := joinNeighborText pn.1
  let nextText := joinNeighborText pn.2
  let combined := stitchWithNeighborsEnhanced prevText res.snippet_html nextText
  { res with snippet_html :=
      truncateAroundHighlight combined MAX_COMBINED_CHARS PRE_TAG POST_TAG }

/-- Lines 108–113: the per-video caption fetch loop; note the `?` on each
`get_all_captions_for_video` call. -/
def gatherCaptions (deps : SearchDeps) : List Str → Except Unit (List SearchResult)
  | [] => .ok []
  | v :: vs => do
    let rs ← deps.captionsFor v
    let rest ← gatherCaptions deps vs
    pure (rs ++ rest)

/-- `search_captions_with_pagination` (lines 92–150); the `?` operators are
desugared into explicit matches on the sub-call results. -/
def searchCaptionsWithPagination (deps : SearchDeps) (page pageSize : Nat) :
    Except Unit SearchResponse :=
  match deps.totalCounts with
  | .error e => .error e
  | .ok totals =>
    match deps.pagedVideoIds with
    | .error e => .error e
    | .ok videoIds =>
      match gatherCaptions deps videoIds with
      | .error e => .error e
      | .ok results =>
        .ok { results := results.map (processResultSnippet deps),
              total_videos := totals.1,
              total_captions := totals.2,
              page := page,
              page_size := pageSize,
              total_pages := totalPagesF32 totals.1 pageSize }

/-- `x` occurs contiguously inside `l`. -/
def Seg (x l : Str) : Prop := ∃ u v, l = u ++ (x ++ v)

/-- `Except.isOk`. -/
def isOkE {ε α : Type} : Except ε α → Bool
  | .ok _ => true
  | .error _ => false

/-! ### Definitions written from the spec's words, for comparison with the
source functions -/

/-- The ranking chain as §4.2 of the spec words it: primary key = the
requested `sort_by` field per `sort_order`. -/
def primaryCmp (opts : SearchOptions) (a b : VideoSortData) : Ordering :=
  match opts.sort_by with
  | .Relevance => compareWithOrderFloat a.avg_score b.avg_score opts.sort_order
  | .CaptionMatches => compareWithOrderFloat a.match_count b.match_count opts.sort_order
  | .UploadDate => compareWithOrderInt a.upload_date b.upload_date opts.sort_order
  | .Duration => compareWithOrderInt a.duration b.duration opts.sort_order
  | .Views => compareWithOrderFloat a.views b.views opts.sort_order
  | .Likes => compareWithOrderFloat a.likes b.likes opts.sort_order

/-- Secondary key per the spec: `avg_score` descending, except `video_id`
ascending when `sort_by` is `Relevance`. -/
def secondaryCmp (opts : SearchOptions) (a b : VideoSortData) : Ordering :=
  if opts.sort_by = .Relevance then lexCmp a.video_id b.video_id
  else compareWithOrderFloat a.avg_score b.avg_score .Desc

/-- The full chain of claim C3: primary, then secondary, then `video_id`
ascending. -/
def specRankChain (opts : SearchOptions) (a b : VideoSortData) : Ordering :=
  (primaryCmp opts a b).then ((secondaryCmp opts a b).then (lexCmp a.video_id b.video_id))

/-- Formalisation of claim C9 as stated: join the non-empty cleaned blocks
with single spaces, inserting a separate `…` block *between* prev and anchor
exactly when the cleaned prev does not end with sentence punctuation, and
*between* anchor and next exactly when the cleaned next does not start with
punctuation. -/
def stitchClaim9 (prev anchorHtml next : Str) : Str :=
  List.intercalate [' ']
    ((if cleanCaptionText prev = [] then []
      else if endsWithAny ['.', '!', '?', ':'] (cleanCaptionText prev) then [cleanCaptionText prev]
      else [cleanCaptionText prev, ['…']]) ++
     [cleanCaptionText anchorHtml] ++
     (if cleanCaptionText next = [] then []
      else if startsWithAny ['.', ',', '!', '?', ':'] (cleanCaptionText next) then
        [cleanCaptionText next]
      else [['…'], cleanCaptionText next]))

/-- The amended claim C9, as the source behaves: the prev/next blocks are
included when the *raw* input is non-empty (the anchor always), the ellipsis
is *prepended to* the prev block when its cleaned text does not end with
`. ! ? :`, and *appended to* the next block when its cleaned text does not
start with `. , ! ? :`; blocks are joined by single spaces. -/
def stitchAmended (prev anchorHtml next : Str) : Str :=
  List.intercalate [' ']
    ((if prev = [] then []
      else if endsWithAny ['.', '!', '?', ':'] (cleanCaptionText prev) then [cleanCaptionText prev]
      else ['…' :: cleanCaptionText prev]) ++
     [cleanCaptionText anchorHtml] ++
     (if next = [] then []
      else if startsWithAny ['.', ',', '!', '?', ':'] (cleanCaptionText next) then
        [cleanCaptionText next]
      else [cleanCaptionText next ++ ['…']]))

/-! ### Concrete instances used by counterexamples and witnesses -/

/-- A single anchor result for video `a`. -/
def resAnchor : SearchResult :=
  { video_id := "a".data, start_time := 0, end_time := 1, snippet_html := "x".data }

/-- Dependencies where counting and the id aggregation succeed, video `a`'s
caption fetch succeeds and video `b`'s caption fetch fails. -/
def depsCaptionFail : SearchDeps :=
  { totalCounts := .ok (2, 3)
    pagedVideoIds := .ok ["a".data, "b".data]
    captionsFor := fun v => if v = "a".data then .ok [resAnchor] else .error ()
    neighborsFor := fun _ _ _ _ _ => .error () }

/-- Dependencies where every index call succeeds except the neighbor fetch. -/
def depsNeighborFail : SearchDeps :=
  { totalCounts := .ok (1, 1)
    pagedVideoIds := .ok ["a".data]
    captionsFor := fun _ => .ok [resAnchor]
    neighborsFor := fun _ _ _ _ _ => .error () }

/-- An over-budget input holding one complete highlight pair followed by a
second `pre_tag` occurrence. -/
def cexC2Input : Str := "<strong>x</strong><strong>aaaaaaaaaaaaaaaaaaaaaaa".data

/-- An over-budget input whose only sentence boundary sits 71 characters
before the initially computed start cut. -/
def c10Input : Str :=
  "ab. ".data ++ List.replicate 100 'c' ++ "<strong>xy</strong>".data ++
    List.replicate 100 'd'

/-- Sample rank entries (pairwise distinct ids, descending `avg_score`). -/
def vRankA : VideoSortData :=
  { video_id := "a".data
    avg_score := 3
    max_score := 3
    match_count := 1
    upload_date := 0
    duration := 0
    views := 0
    likes := 0 }

def vRankB : VideoSortData :=
  { video_id := "b".data
    avg_score := 2
    max_score := 2
    match_count := 1
    upload_date := 0
    duration := 0
    views := 0
    likes := 0 }

def vRankC : VideoSortData :=
  { video_id := "c".data
    avg_score := 1
    max_score := 1
    match_count := 1
    upload_date := 0
    duration := 0
    views := 0
    likes := 0 }

/-- Sample caption window (sorted by `start_time`, one caption each 2s). -/
def capWin (st : ℚ) : Caption :=
  { video_id := "v".data, text := "t".data, start_time := st, end_time := st }

/-! ## Theorems -/

/-! ### Helper lemmas for the `f32` model -/

theorem rheIntCast (n : ℤ) : roundHalfEven (n : ℚ) = n := by
  unfold roundHalfEven
  norm_num

theorem rheHalfEven (n : ℤ) (h : n % 2 = 0) : roundHalfEven ((n : ℚ) + 1/2) = n := by
  have hf : ⌊(n:ℚ) + 1/2⌋ = n := by
    rw [add_comm, Int.floor_add_int]
    norm_num
  unfold roundHalfEven
  rw [hf]
  have h2 : (n:ℚ) + 1/2 - n = 1/2 := by ring
  rw [h2]
  norm_num [h]

theorem log2val_16777217 : Nat.log2 16777217 = 24 := by
  rw [Nat.log2_eq_log_two]
  exact Nat.log_eq_of_pow_le_of_lt_pow (by norm_num) (by norm_num)

theorem log2val_16777216 : Nat.log2 16777216 = 24 := by
  rw [Nat.log2_eq_log_two]
  exact Nat.log_eq_of_pow_le_of_lt_pow (by norm_num) (by norm_num)

theorem log2val_1 : Nat.log2 1 = 0 := by
  rw [Nat.log2_eq_log_two]
  exact Nat.log_eq_of_pow_le_of_lt_pow (by norm_num) (by norm_num)

theorem f32exp_16777217 : f32exp 16777217 = 24 := by
  unfold f32exp
  rw [if_pos (by norm_num : (1:ℚ) ≤ 16777217)]
  norm_num
  rw [show Int.toNat 16777217 = 16777217 from rfl, log2val_16777217]
  norm_num

theorem roundF32_16777217 : roundF32 16777217 = 16777216 := by
  unfold roundF32
  rw [if_neg (by norm_num : ¬(16777217:ℚ) ≤ 0), f32exp_16777217]
  have hs : (16777217:ℚ) * 2 ^ ((23:ℤ) - 24) = ((8388608:ℤ):ℚ) + 1/2 := by norm_num
  rw [hs, rheHalfEven 8388608 (by decide)]
  norm_num

theorem f32exp_one : f32exp 1 = 0 := by
  unfold f32exp
  rw [if_pos (by norm_num : (1:ℚ) ≤ 1)]
  norm_num
  exact log2val_1

theorem roundF32_one : roundF32 1 = 1 := by
  unfold roundF32
  rw [if_neg (by norm_num : ¬(1:ℚ) ≤ 0), f32exp_one]
  have hs : (1:ℚ) * 2 ^ ((23:ℤ) - 0) = ((8388608:ℤ):ℚ) := by norm_num
  rw [hs, rheIntCast]
  norm_num

theorem f32exp_16777216 : f32exp 16777216 = 24 := by
  unfold f32exp
  rw [if_pos (by norm_num : (1:ℚ) ≤ 16777216)]
  norm_num
  rw [show Int.toNat 16777216 = 16777216 from rfl, log2val_16777216]
  norm_num

theorem roundF32_16777216 : roundF32 16777216 = 16777216 := by
  unfold roundF32
  rw [if_neg (by norm_num : ¬(16777216:ℚ) ≤ 0), f32exp_16777216]
  have hs : (16777216:ℚ) * 2 ^ ((23:ℤ) - 24) = ((8388608:ℤ):ℚ) := by norm_num
  rw [hs, rheIntCast]
  norm_num

theorem roundF32_zero : roundF32 0 = 0 := by
  unfold roundF32
  rw [if_pos (le_refl (0:ℚ))]

/-! ### C6 -/

/-- Claim C6 (code bug): the source computes
`(total_videos as f32 / page_size as f32).ceil() as usize`.  The `f32`
conversion is not exact beyond `2²⁴`: at `total_videos = 16777217 = 2²⁴ + 1`,
`page_size = 1`, it produces 16777216 while the exact integer ceiling
(`ceilDiv`, what the claim states) is 16777217.  The zero-match part of the
claim does hold: `total_pages = 0` when `total_videos = 0`. -/
theorem claim6_f32_ceiling_failure :
    totalPagesF32 16777217 1 = 16777216 ∧
    ceilDiv 16777217 1 = 16777217 ∧
    totalPagesF32 0 1 = 0 := by
  refine ⟨?_, by decide, ?_⟩
  · unfold totalPagesF32
    rw [show ((16777217:Nat):ℚ) = (16777217:ℚ) by norm_num,
        show ((1:Nat):ℚ) = (1:ℚ) by norm_num, roundF32_16777217, roundF32_one]
    rw [if_neg (by norm_num : ¬(1:ℚ) = 0)]
    rw [show (16777216:ℚ)/1 = ((16777216:ℚ)) by norm_num, roundF32_16777216]
    norm_num
    rfl
  · unfold totalPagesF32
    rw [show ((0:Nat):ℚ) = (0:ℚ) by norm_num,
        show ((1:Nat):ℚ) = (1:ℚ) by norm_num, roundF32_zero, roundF32_one]
    rw [if_neg (by norm_num : ¬(1:ℚ) = 0)]
    rw [show (0:ℚ)/1 = ((0:ℚ)) by norm_num, roundF32_zero]
    norm_num

/-! ### C5 -/

/-- Claim C5: the aggregation request of `get_paginated_video_ids` caps the
per-video terms grouping at 10000 buckets, and the candidate extraction
produces at most one entry per returned bucket, so at most 10000 distinct
videos enter the candidate set whenever the index honors the requested cap. -/
theorem claim5_agg_bucket_cap (mainQuery resp : Json)
    (hresp : (bucketsOf resp).length ≤ 10000) :
    (aggQueryBody mainQuery).getPath ["aggs", "unique_videos", "terms", "size"]
      = some (.num 10000) ∧
    (extractVideoData resp).length ≤ 10000 :=
  ⟨rfl, le_trans (List.length_filterMap_le _ _) hresp⟩

theorem claim5_witness :
    (aggQueryBody .null).getPath ["aggs", "unique_videos", "terms", "size"]
      = some (.num 10000) ∧
    (extractVideoData .null).length ≤ 10000 :=
  claim5_agg_bucket_cap .null .null (by decide)

/-! ### C7 -/

/-- Claim C7 as stated is false on the code: `Wide` mode builds a
disjunction of *six* clauses, not five (the source has two separate
minimum-share `multi_match` clauses: 75% without fuzziness at boost 1.5 and
50% with fuzziness at boost 1.0). -/
theorem claim7_counterexample :
    (shouldClauses (buildMainQueryByType "hello world"
        (SearchOptions.wide .Relevance .Desc))).length = 6 ∧
    (shouldClauses (buildMainQueryByType "hello world"
        (SearchOptions.wide .Relevance .Desc))).length ≠ 5 := by
  refine ⟨rfl, by decide⟩

/-- Claim C7 amended: `Wide` mode builds a disjunction of exactly six
clauses — exact phrase, phrase with slop 3, all-terms AND over raw+stemmed,
the AND clause with fuzziness, a 75%-of-terms OR clause *without* fuzziness,
and a 50%-of-terms OR clause with fuzziness — whose fixed boosts
4 > 3 > 2.5 > 2 > 1.5 > 1 are strictly descending. -/
theorem claim7_amended (queryString : String) (opts : SearchOptions)
    (hw : opts.search_type = .Wide) :
    (shouldClauses (buildMainQueryByType queryString opts)).length = 6 ∧
    (shouldClauses (buildMainQueryByType queryString opts)).map clauseBoost =
      [some 4, some 3, some (5/2), some 2, some (3/2), some 1] ∧
    ((3:ℚ) < 4 ∧ (5/2:ℚ) < 3 ∧ (2:ℚ) < 5/2 ∧ (3/2:ℚ) < 2 ∧ (1:ℚ) < 3/2) ∧
    (shouldClauses (buildMainQueryByType queryString opts)).map
        (fun c => (c.getPath ["multi_match", "operator"]).bind Json.asStr) =
      [none, none, some "and", some "and", some "or", some "or"] ∧
    (shouldClauses (buildMainQueryByType queryString opts)).map
        (fun c => (c.getPath ["multi_match", "fuzziness"]).isSome) =
      [false, false, false, true, false, true] ∧
    (shouldClauses (buildMainQueryByType queryString opts)).map
        (fun c => (c.getPath ["multi_match", "minimum_should_match"]).bind Json.asStr) =
      [none, none, none, none, some "75%", some "50%"] ∧
    (shouldClauses (buildMainQueryByType queryString opts)).map
        (fun c => (c.getPath ["match_phrase", "text", "slop"]).bind Json.asNum) =
      [none, some 3, none, none, none, none] := by
  obtain ⟨st, fz, sb, so⟩ := opts
  cases hw
  exact ⟨rfl, rfl, by norm_num, rfl, rfl, rfl, rfl⟩

theorem claim7_amended_witness :
    (shouldClauses (buildMainQueryByType "q"
        (SearchOptions.wide .Relevance .Asc))).length = 6 :=
  (claim7_amended "q" (SearchOptions.wide .Relevance .Asc) rfl).1

/-! ### C9 -/

/-- Claim C9 as stated is false on the code: the source does not insert the
ellipsis *between* the prev block and the anchor — it prepends it to the prev
block.  With `prev = "hello"`, `anchor = "x"`, `next = ""` the source
produces `"…hello x"`, while the claim's wording produces `"hello … x"`. -/
theorem claim9_counterexample :
    stitchWithNeighborsEnhanced "hello".data "x".data [] = "…hello x".data ∧
    stitchClaim9 "hello".data "x".data [] = "hello … x".data ∧
    stitchWithNeighborsEnhanced "hello".data "x".data [] ≠
      stitchClaim9 "hello".data "x".data [] := by
  refine ⟨by decide, by decide, by decide⟩

/-- Claim C9 amended: the stitcher joins with single spaces the blocks of
the non-empty raw inputs (the anchor always), *prepending* `…` to the prev
block exactly when its cleaned text does not end with `. ! ? :` and
*appending* `…` to the next block exactly when its cleaned text does not
start with `. , ! ? :`; with both neighbors empty the output is exactly the
cleaned anchor text. -/
theorem claim9_amended (prev anchorHtml next : Str) :
    stitchWithNeighborsEnhanced prev anchorHtml next =
      stitchAmended prev anchorHtml next ∧
    stitchWithNeighborsEnhanced [] anchorHtml [] = cleanCaptionText anchorHtml := by
  constructor
  · cases prev <;> cases next <;>
      simp [stitchWithNeighborsEnhanced, stitchAmended, List.intercalate]
  · simp [stitchWithNeighborsEnhanced, List.intercalate]

/-! ### C10 -/

set_option maxRecDepth 40000 in
/-- Claim C10 (code bug): the look-behind windows of the start cut are
no-ops in the source (`start_char.min(start_char + 30)` equals `start_char`),
so the backward sentence scan runs all the way to index 0.  On `c10Input`
(sentence boundary at index 2, initial start cut at index 74) the start cut
moves 71 characters to index 3 and the output keeps all 100 `c`s, though the
claim allows a move of at most 30 (sentence) / 20 (space) characters.  The
forward (end-side) windows are bounded as claimed. -/
theorem claim10_unbounded_start_scan :
    truncateAroundHighlight c10Input 40 PRE_TAG POST_TAG =
      '…' :: (List.replicate 100 'c' ++ "<strong>xy</strong>".data ++
        List.replicate 30 'd' ++ ['…']) ∧
    countOccs ['c'] (truncateAroundHighlight c10Input 40 PRE_TAG POST_TAG) = 100 := by
  refine ⟨by decide, by decide⟩

/-! ### C2: highlight preservation in `truncate_around_highlight` -/

/-! ### Seg and leads kit -/

theorem seg_trans {x y z : Str} (h1 : Seg x y) (h2 : Seg y z) : Seg x z := by
  obtain ⟨u1, v1, rfl⟩ := h1
  obtain ⟨u2, v2, rfl⟩ := h2
  exact ⟨u2 ++ u1, v1 ++ v2, by simp [List.append_assoc]⟩

theorem seg_of_append (e1 m e2 : Str) : Seg m (e1 ++ (m ++ e2)) := ⟨e1, e2, rfl⟩

theorem leads_iff_append {pat s : Str} : leads pat s = true ↔ ∃ t, s = pat ++ t := by
  induction pat generalizing s with
  | nil => simp [leads]
  | cons p ps ih =>
    cases s with
    | nil => simp [leads]
    | cons c cs =>
      show (p == c && leads ps cs) = true ↔ _
      rw [Bool.and_eq_true, beq_iff_eq, ih]
      constructor
      · rintro ⟨rfl, t, rfl⟩
        exact ⟨t, rfl⟩
      · rintro ⟨t, ht⟩
        cases ht
        exact ⟨rfl, t, rfl⟩

theorem leads_self (pat t : Str) : leads pat (pat ++ t) = true :=
  leads_iff_append.mpr ⟨t, rfl⟩

theorem leads_mono_append {pat s : Str} (t : Str) (h : leads pat s = true) :
    leads pat (s ++ t) = true := by
  obtain ⟨r, rfl⟩ := leads_iff_append.mp h
  rw [List.append_assoc]
  exact leads_self pat (r ++ t)

theorem leads_length_le {pat s : Str} (h : leads pat s = true) : pat.length ≤ s.length := by
  obtain ⟨r, rfl⟩ := leads_iff_append.mp h
  simp

theorem not_leads_nil {pat : Str} (hne : pat ≠ []) : ¬ leads pat [] = true := by
  intro h
  have := leads_length_le h
  simp at this
  exact hne this

theorem leads_of_le_append {pat m t : Str} (h : leads pat (m ++ t) = true)
    (hlen : pat.length ≤ m.length) : leads pat m = true := by
  obtain ⟨r, hr⟩ := leads_iff_append.mp h
  apply leads_iff_append.mpr
  refine ⟨m.drop pat.length, ?_⟩
  have hpat : pat = m.take pat.length := by
    have h1 : (m ++ t).take pat.length = (pat ++ r).take pat.length := by rw [hr]
    rw [List.take_append_of_le_length hlen, List.take_append_of_le_length le_rfl,
      List.take_length] at h1
    exact h1.symm
  conv_lhs => rw [← List.take_append_drop pat.length m]
  rw [← hpat]

theorem leads_tail_mem {pat m t : Str} (h : leads pat (m ++ t) = true)
    (hlen : m.length < pat.length) : ∃ c, c ∈ t ∧ c ∈ pat := by
  obtain ⟨r, hr⟩ := leads_iff_append.mp h
  have hpat : pat = m ++ t.take (pat.length - m.length) := by
    have h1 : (m ++ t).take pat.length = (pat ++ r).take pat.length := by rw [hr]
    rw [List.take_append_of_le_length le_rfl, List.take_length] at h1
    rw [show pat.length = m.length + (pat.length - m.length) by omega,
      List.take_append] at h1
    exact h1.symm
  cases ht : t with
  | nil =>
    subst ht
    simp only [List.take_nil, List.append_nil] at hpat
    have := congrArg List.length hpat
    omega
  | cons c cs =>
    refine ⟨c, by simp [ht], ?_⟩
    subst ht
    obtain ⟨n, hn⟩ : ∃ n, pat.length - m.length = n + 1 :=
      ⟨pat.length - m.length - 1, by omega⟩
    rw [hpat, hn, List.take_succ_cons]
    simp

theorem leads_append_not_mem {pat m pad : Str} (hne : pat ≠ [])
    (hpad : ∀ c ∈ pad, c ∉ pat) : leads pat (m ++ pad) = leads pat m := by
  by_cases h : leads pat m = true
  · rw [h, leads_mono_append pad h]
  · rw [eq_false_of_ne_true h, ← Bool.not_eq_true]
    intro htrue
    rcases le_or_lt pat.length m.length with hle | hgt
    · exact h (leads_of_le_append htrue hle)
    · obtain ⟨c, hct, hcp⟩ := leads_tail_mem htrue hgt
      exact hpad c hct hcp

/-! ### countOccs kit -/

theorem countOccs_nil (pat : Str) : countOccs pat [] = 0 := rfl

theorem countOccs_cons (pat : Str) (c : Char) (cs : Str) :
    countOccs pat (c :: cs) = (if leads pat (c :: cs) then 1 else 0) + countOccs pat cs := rfl

theorem countOccs_le_append_left (pat u t : Str) :
    countOccs pat t ≤ countOccs pat (u ++ t) := by
  induction u with
  | nil => simp
  | cons c cs ih =>
    calc countOccs pat t ≤ countOccs pat (cs ++ t) := ih
    _ ≤ countOccs pat (c :: (cs ++ t)) := by rw [countOccs_cons]; omega
    _ = countOccs pat ((c :: cs) ++ t) := rfl

theorem countOccs_le_append_right (pat t v : Str) :
    countOccs pat t ≤ countOccs pat (t ++ v) := by
  induction t with
  | nil => simp [countOccs_nil]
  | cons c cs ih =>
    rw [List.cons_append, countOccs_cons, countOccs_cons]
    have hb : (if leads pat (c :: cs) then 1 else 0) ≤
        (if leads pat (c :: (cs ++ v)) then 1 else 0) := by
      split_ifs with h1 h2
      · omega
      · exact absurd (by have := leads_mono_append v h1; simpa using this) h2
      · omega
      · omega
    omega

theorem countOccs_seg_le {x l : Str} (pat : Str) (h : Seg x l) :
    countOccs pat x ≤ countOccs pat l := by
  obtain ⟨u, v, rfl⟩ := h
  calc countOccs pat x ≤ countOccs pat (x ++ v) := countOccs_le_append_right pat x v
  _ ≤ countOccs pat (u ++ (x ++ v)) := countOccs_le_append_left pat u (x ++ v)

theorem countOccs_pos_of_occAt {pat l : Str} (j : Nat) (hne : pat ≠ [])
    (h : leads pat (l.drop j) = true) : 1 ≤ countOccs pat l := by
  induction l generalizing j with
  | nil =>
    rw [List.drop_nil] at h
    exact absurd h (not_leads_nil hne)
  | cons c cs ih =>
    cases j with
    | zero =>
      rw [List.drop_zero] at h
      rw [countOccs_cons, if_pos h]
      omega
    | succ j =>
      rw [List.drop_succ_cons] at h
      have := ih j h
      rw [countOccs_cons]
      omega

theorem countOccs_two_of_two_occ {pat l : Str} {i j : Nat} (hne : pat ≠ [])
    (hij : i < j) (hi : leads pat (l.drop i) = true) (hj : leads pat (l.drop j) = true) :
    2 ≤ countOccs pat l := by
  induction l generalizing i j with
  | nil =>
    rw [List.drop_nil] at hi
    exact absurd hi (not_leads_nil hne)
  | cons c cs ih =>
    cases i with
    | zero =>
      rw [List.drop_zero] at hi
      cases j with
      | zero => omega
      | succ j =>
        rw [List.drop_succ_cons] at hj
        rw [countOccs_cons, if_pos hi]
        have := countOccs_pos_of_occAt j hne hj
        omega
    | succ i =>
      cases j with
      | zero => omega
      | succ j =>
        rw [List.drop_succ_cons] at hi hj
        have := ih (by omega : i < j) hi hj
        rw [countOccs_cons]
        omega

theorem findSub_eq_of_unique {pat l : Str} {i : Nat} (hne : pat ≠ [])
    (hcount : countOccs pat l = 1) (hocc : leads pat (l.drop i) = true) :
    findSub pat l = some i := by
  induction l generalizing i with
  | nil =>
    rw [List.drop_nil] at hocc
    exact absurd hocc (not_leads_nil hne)
  | cons c cs ih =>
    by_cases h0 : leads pat (c :: cs) = true
    · have hi0 : i = 0 := by
        by_contra hne0
        have h2 := countOccs_two_of_two_occ hne (by omega : 0 < i)
          (by rw [List.drop_zero]; exact h0) hocc
        omega
      subst hi0
      unfold findSub
      rw [if_pos h0]
    · have hi0 : i ≠ 0 := by
        intro h
        subst h
        rw [List.drop_zero] at hocc
        exact h0 hocc
      obtain ⟨i', rfl⟩ : ∃ i', i = i' + 1 := ⟨i - 1, by omega⟩
      rw [List.drop_succ_cons] at hocc
      have hcount' : countOccs pat cs = 1 := by
        rw [countOccs_cons, if_neg h0] at hcount
        omega
      have hrec := ih hcount' hocc
      unfold findSub
      rw [if_neg h0]
      show (findSub pat cs).map (· + 1) = some (i' + 1)
      rw [hrec]
      rfl

theorem countOccs_cons_not_mem {pat : Str} {c : Char} (m : Str) (hne : pat ≠ [])
    (hc : c ∉ pat) : countOccs pat (c :: m) = countOccs pat m := by
  rw [countOccs_cons, if_neg]
  · omega
  · intro h
    obtain ⟨t, ht⟩ := leads_iff_append.mp h
    cases pat with
    | nil => exact hne rfl
    | cons p ps =>
      cases ht
      exact hc (by simp)

theorem countOccs_append_not_mem {pat : Str} (m pad : Str) (hne : pat ≠ [])
    (hpad : ∀ c ∈ pad, c ∉ pat) : countOccs pat (m ++ pad) = countOccs pat m := by
  induction m with
  | nil =>
    simp only [List.nil_append, countOccs_nil]
    induction pad with
    | nil => rfl
    | cons c cs ih =>
      rw [countOccs_cons_not_mem cs hne (hpad c (by simp))]
      exact ih (fun d hd => hpad d (by simp [hd]))
  | cons c cs ih =>
    rw [List.cons_append, countOccs_cons, countOccs_cons, ih,
      show c :: (cs ++ pad) = (c :: cs) ++ pad from rfl,
      leads_append_not_mem hne hpad]

/-! ### trim kit -/

theorem trimStart_exists (l : Str) : ∃ u, l = u ++ trimStart l := by
  induction l with
  | nil => exact ⟨[], rfl⟩
  | cons c cs ih =>
    unfold trimStart List.dropWhile
    by_cases h : wsChar c
    · obtain ⟨u, hu⟩ := ih
      rw [h]
      exact ⟨c :: u, by simpa using hu⟩
    · rw [eq_false_of_ne_true h]
      exact ⟨[], rfl⟩

theorem trimEnd_exists (l : Str) : ∃ v, l = trimEnd l ++ v := by
  obtain ⟨u, hu⟩ := trimStart_exists l.reverse
  refine ⟨u.reverse, ?_⟩
  have h2 := congrArg List.reverse hu
  rw [List.reverse_reverse, List.reverse_append] at h2
  conv_lhs => rw [h2]
  rfl

theorem seg_trimStart {x l : Str} {xc : Char} {xr : Str} (hx : x = xc :: xr)
    (hhead : wsChar xc = false) (h : Seg x l) : Seg x (trimStart l) := by
  obtain ⟨u, v, rfl⟩ := h
  induction u with
  | nil =>
    subst hx
    unfold trimStart
    rw [List.nil_append, List.cons_append, List.dropWhile_cons, hhead]
    exact ⟨[], v, rfl⟩
  | cons c cs ih =>
    rw [List.cons_append]
    unfold trimStart
    rw [List.dropWhile_cons]
    by_cases hc : wsChar c
    · rw [hc]
      exact ih
    · rw [eq_false_of_ne_true hc]
      exact ⟨c :: cs, v, rfl⟩

theorem seg_reverse {x l : Str} (h : Seg x l) : Seg x.reverse l.reverse := by
  obtain ⟨u, v, rfl⟩ := h
  refine ⟨v.reverse, u.reverse, ?_⟩
  simp [List.reverse_append]

theorem seg_trimEnd {x l : Str} {xc : Char} {xr : Str} (hx : x.reverse = xc :: xr)
    (hlast : wsChar xc = false) (h : Seg x l) : Seg x (trimEnd l) := by
  have h1 : Seg x.reverse (trimStart l.reverse) := seg_trimStart hx hlast (seg_reverse h)
  have h2 : Seg x.reverse.reverse (trimStart l.reverse).reverse := seg_reverse h1
  rw [List.reverse_reverse] at h2
  exact h2

theorem trimEnd_cons_not_ws {c : Char} (l : Str) (hc : wsChar c = false) :
    trimEnd (c :: l) = c :: trimEnd l := by
  unfold trimEnd
  rw [List.reverse_cons, List.dropWhile_append]
  by_cases h : (l.reverse.dropWhile wsChar).isEmpty
  · rw [if_pos h, List.dropWhile_cons]
    rw [hc]
    have : l.reverse.dropWhile wsChar = [] := by
      cases hd : l.reverse.dropWhile wsChar
      · rfl
      · rw [hd] at h; simp at h
    rw [List.dropWhile_nil, this]
    rfl
  · rw [if_neg h, List.reverse_append]
    rfl

/-! ### slice kit -/

theorem take_drop_split (l : Str) (a b c : Nat) (hab : a ≤ b) (hbc : b ≤ c) :
    (l.drop a).take (c - a) = (l.drop a).take (b - a) ++ (l.drop b).take (c - b) := by
  rw [show c - a = (b - a) + (c - b) by omega, List.take_add, List.drop_drop,
    show a + (b - a) = b by omega]

theorem drop_take_middle (A x B : Str) :
    ((A ++ (x ++ B)).drop A.length).take x.length = x := by
  rw [List.drop_left, List.take_append_of_le_length le_rfl, List.take_length]

/-! ### cut bounds -/

theorem computeCuts_bounds (total maxChars hlStart hlEnd : Nat)
    (h1 : hlStart < hlEnd) (h2 : hlEnd ≤ total) :
    (computeCuts total maxChars hlStart hlEnd).1 ≤ hlStart ∧
    hlEnd ≤ (computeCuts total maxChars hlStart hlEnd).2 ∧
    (computeCuts total maxChars hlStart hlEnd).2 ≤ total ∧
    (0 < (computeCuts total maxChars hlStart hlEnd).1 →
      (computeCuts total maxChars hlStart hlEnd).1 + 1 ≤ hlStart) := by
  unfold computeCuts
  simp only
  split_ifs <;> constructor <;> try constructor
  all_goals try constructor
  all_goals omega

theorem findBack_le {p : Char → Bool} {s : Str} {k i : Nat}
    (h : findBack p s k = some i) : i ≤ k := by
  induction k with
  | zero =>
    unfold findBack at h
    split_ifs at h
    · cases h; omega
  | succ k ih =>
    unfold findBack at h
    split_ifs at h
    · cases h; omega
    · have := ih h
      omega

theorem findFwdFrom_bounds {p : Char → Bool} {s : Str} :
    ∀ {fuel lo i : Nat}, findFwdFrom p s lo fuel = some i → lo ≤ i ∧ i < lo + fuel := by
  intro fuel
  induction fuel with
  | zero => intro lo i h; cases h
  | succ fuel ih =>
    intro lo i h
    unfold findFwdFrom at h
    split_ifs at h
    · cases h; omega
    · have := ih h
      omega

theorem findFwd_bounds {p : Char → Bool} {s : Str} {lo hi i : Nat}
    (h : findFwd p s lo hi = some i) : lo ≤ i ∧ i ≤ hi := by
  unfold findFwd at h
  have := findFwdFrom_bounds h
  omega

theorem adjustStart_le (s : Str) (startChar total hlStart : Nat)
    (hsc : startChar ≤ hlStart)
    (hpos : 0 < startChar → startChar + 1 ≤ hlStart) :
    adjustStart s startChar total ≤ hlStart := by
  by_cases h0 : 0 < startChar
  · have hp := hpos h0
    have hmin : ∀ i : Nat, i ≤ startChar → min (i + 1) (total - 1) ≤ hlStart := by
      intro i hi
      exact le_trans (le_trans (min_le_left _ _) (Nat.succ_le_succ hi)) hp
    cases hb : findBack isSentChar s startChar with
    | some i =>
      have hi := findBack_le hb
      cases hw : findBack isSpaceChar s startChar with
      | some j =>
        have hj := findBack_le hw
        simp only [adjustStart]
        rw [if_pos h0]
        simp only [hb, hw]
        split_ifs with heq
        · exact le_trans (Nat.succ_le_succ hj) hp
        · exact hmin i hi
      | none =>
        simp only [adjustStart]
        rw [if_pos h0]
        simp only [hb, hw]
        split_ifs with heq
        · exact hsc
        · exact hmin i hi
    | none =>
      cases hw : findBack isSpaceChar s startChar with
      | some j =>
        have hj := findBack_le hw
        simp only [adjustStart]
        rw [if_pos h0]
        simp only [hb, hw]
        split_ifs with heq
        all_goals first
          | exact le_trans (Nat.succ_le_succ hj) hp
          | exact hsc
      | none =>
        simp only [adjustStart]
        rw [if_pos h0]
        simp only [hb, hw]
        split_ifs with heq
        all_goals exact hsc
  · simp only [adjustStart]
    rw [if_neg h0]
    exact hsc

theorem adjustEnd_bounds (s : Str) (endChar total hlEnd : Nat)
    (hec : hlEnd ≤ endChar) (het : endChar ≤ total) :
    hlEnd ≤ adjustEnd s endChar total ∧ adjustEnd s endChar total ≤ total := by
  by_cases h0 : endChar < total
  · have hsent : ∀ i : Nat, endChar ≤ i →
        hlEnd ≤ min (i + 1) total ∧ min (i + 1) total ≤ total := by
      intro i hi
      constructor
      · exact le_min (le_trans hec (le_trans hi (Nat.le_succ i))) (le_trans hec het)
      · exact min_le_right _ _
    have hword : ∀ j : Nat, endChar ≤ j → j ≤ min (endChar + 20) (total - 1) →
        hlEnd ≤ j ∧ j ≤ total := by
      intro j hj1 hj2
      have := le_trans hj2 (min_le_right _ _)
      exact ⟨le_trans hec hj1, by omega⟩
    cases hb : findFwd isSentChar s endChar (min (endChar + 30) (total - 1)) with
    | some i =>
      have hi := findFwd_bounds hb
      cases hw : findFwd isSpaceChar s endChar (min (endChar + 20) (total - 1)) with
      | some j =>
        have hj := findFwd_bounds hw
        simp only [adjustEnd]
        rw [if_pos h0]
        simp only [hb, hw]
        split_ifs with heq
        · exact hword j hj.1 hj.2
        · exact hsent i hi.1
      | none =>
        simp only [adjustEnd]
        rw [if_pos h0]
        simp only [hb, hw]
        split_ifs with heq
        · exact ⟨hec, het⟩
        · exact hsent i hi.1
    | none =>
      cases hw : findFwd isSpaceChar s endChar (min (endChar + 20) (total - 1)) with
      | some j =>
        have hj := findFwd_bounds hw
        simp only [adjustEnd]
        rw [if_pos h0]
        simp only [hb, hw]
        split_ifs with heq
        all_goals first
          | exact hword j hj.1 hj.2
          | exact ⟨hec, het⟩
      | none =>
        simp only [adjustEnd]
        rw [if_pos h0]
        simp only [hb, hw]
        split_ifs with heq
        all_goals exact ⟨hec, het⟩
  · simp only [adjustEnd]
    rw [if_neg h0]
    exact ⟨hec, het⟩


theorem countOccs_pos_of_seg {pat l : Str} (hne : pat ≠ []) (h : Seg pat l) :
    1 ≤ countOccs pat l := by
  obtain ⟨u, v, rfl⟩ := h
  apply countOccs_pos_of_occAt u.length hne
  rw [List.drop_left]
  exact leads_self pat v

theorem seg_trimStart_self (l : Str) : Seg (trimStart l) l := by
  obtain ⟨u, hu⟩ := trimStart_exists l
  exact ⟨u, [], by rw [List.append_nil]; exact hu⟩

theorem seg_trimEnd_self (l : Str) : Seg (trimEnd l) l := by
  obtain ⟨v, hv⟩ := trimEnd_exists l
  exact ⟨[], v, by rw [List.nil_append]; exact hv⟩

theorem truncCore_main (s x A B : Str) (maxChars : Nat)
    (hs : s = A ++ (x ++ B))
    (hhead : ∃ xc xr, x = xc :: xr ∧ wsChar xc = false)
    (hlast : ∃ yc yr, x.reverse = yc :: yr ∧ wsChar yc = false) :
    ∃ mid e1 e2 : Str,
      truncCore s maxChars A.length (A.length + x.length) = e1 ++ (mid ++ e2) ∧
      (e1 = [] ∨ e1 = ['…']) ∧ (e2 = [] ∨ e2 = ['…']) ∧
      Seg x mid ∧ Seg mid s := by
  obtain ⟨xc, xr, hx, hxws⟩ := hhead
  obtain ⟨yc, yr, hy, hyws⟩ := hlast
  have hlen : s.length = A.length + (x.length + B.length) := by
    rw [hs]
    simp [List.length_append]
  have hxpos : 0 < x.length := by
    rw [hx]
    simp
  have h1 : A.length < A.length + x.length := by omega
  have h2 : A.length + x.length ≤ s.length := by omega
  obtain ⟨hc1, hc2, hc3, hc4⟩ :=
    computeCuts_bounds s.length maxChars A.length (A.length + x.length) h1 h2
  have ha := adjustStart_le s
    (computeCuts s.length maxChars A.length (A.length + x.length)).1 s.length A.length
    hc1 hc4
  have he := adjustEnd_bounds s
    (computeCuts s.length maxChars A.length (A.length + x.length)).2 s.length
    (A.length + x.length) hc2 hc3
  simp only [truncCore]
  set a := adjustStart s
    (computeCuts s.length maxChars A.length (A.length + x.length)).1 s.length with hadef
  set e := adjustEnd s
    (computeCuts s.length maxChars A.length (A.length + x.length)).2 s.length with hedef
  have hxslice : (s.drop A.length).take x.length = x := by
    rw [hs]
    exact drop_take_middle A x B
  have hSegXcore : Seg x ((s.drop a).take (e - a)) := by
    refine ⟨(s.drop a).take (A.length - a),
      (s.drop (A.length + x.length)).take (e - (A.length + x.length)), ?_⟩
    have hidx : x.length = (A.length + x.length) - A.length := by omega
    calc (s.drop a).take (e - a)
        = (s.drop a).take (A.length - a) ++ (s.drop A.length).take (e - A.length) :=
          take_drop_split s a A.length e ha (by omega)
      _ = (s.drop a).take (A.length - a) ++
          ((s.drop A.length).take ((A.length + x.length) - A.length) ++
            (s.drop (A.length + x.length)).take (e - (A.length + x.length))) := by
          rw [take_drop_split s A.length (A.length + x.length) e (by omega) he.1]
      _ = (s.drop a).take (A.length - a) ++
          (x ++ (s.drop (A.length + x.length)).take (e - (A.length + x.length))) := by
          rw [← hidx, hxslice]
  have hSegCoreS : Seg ((s.drop a).take (e - a)) s := by
    refine ⟨s.take a, (s.drop a).drop (e - a), ?_⟩
    conv_lhs => rw [← List.take_append_drop a s]
    congr 1
    exact (List.take_append_drop (e - a) (s.drop a)).symm
  by_cases hA0 : 0 < a
  · by_cases hEt : e < s.length
    · refine ⟨trimEnd (trimStart ((s.drop a).take (e - a))), ['…'], ['…'], ?_, Or.inr rfl,
        Or.inr rfl, ?_, ?_⟩
      · rw [if_pos hEt, if_pos hA0, trimEnd_cons_not_ws _ (by rfl)]
        rfl
      · exact seg_trimEnd hy hyws (seg_trimStart hx hxws hSegXcore)
      · exact seg_trans (seg_trimEnd_self _) (seg_trans (seg_trimStart_self _) hSegCoreS)
    · refine ⟨trimStart ((s.drop a).take (e - a)), ['…'], [], ?_, Or.inr rfl, Or.inl rfl,
        ?_, ?_⟩
      · rw [if_neg hEt, if_pos hA0]
        simp
      · exact seg_trimStart hx hxws hSegXcore
      · exact seg_trans (seg_trimStart_self _) hSegCoreS
  · by_cases hEt : e < s.length
    · refine ⟨trimEnd ((s.drop a).take (e - a)), [], ['…'], ?_, Or.inl rfl, Or.inr rfl,
        ?_, ?_⟩
      · rw [if_pos hEt, if_neg hA0]
        rfl
      · exact seg_trimEnd hy hyws hSegXcore
      · exact seg_trans (seg_trimEnd_self _) hSegCoreS
    · refine ⟨(s.drop a).take (e - a), [], [], ?_, Or.inl rfl, Or.inl rfl, ?_, ?_⟩
      · rw [if_neg hEt, if_neg hA0]
        simp
      · exact hSegXcore
      · exact hSegCoreS


/-- Claim C2 amended: for every over-budget input that contains exactly one
occurrence of `pre_tag` and, after it, exactly one occurrence of `post_tag`
(with whitespace-free, ellipsis-free, non-empty tags — the pipeline's
`<strong>`/`</strong>` qualify), the output of `truncate_around_highlight`
contains exactly one occurrence of `pre_tag` and one of `post_tag`, in that
order, with the originally-highlighted substring `pre ++ M ++ post` kept
fully intact as one contiguous block, even when keeping it whole exceeds
`max_chars`. -/
theorem claim2_amended (A M B pre post : Str) (maxChars : Nat)
    (hpre : pre ≠ []) (hpost : post ≠ [])
    (hpreWs : ∀ c ∈ pre, wsChar c = false)
    (hpostWs : ∀ c ∈ post, wsChar c = false)
    (hpreEll : ('…' : Char) ∉ pre) (hpostEll : ('…' : Char) ∉ post)
    (hcPre : countOccs pre (A ++ (pre ++ (M ++ (post ++ B)))) = 1)
    (hcPost : countOccs post (A ++ (pre ++ (M ++ (post ++ B)))) = 1)
    (hlong : maxChars < (A ++ (pre ++ (M ++ (post ++ B)))).length) :
    countOccs pre (truncateAroundHighlight (A ++ (pre ++ (M ++ (post ++ B))))
      maxChars pre post) = 1 ∧
    countOccs post (truncateAroundHighlight (A ++ (pre ++ (M ++ (post ++ B))))
      maxChars pre post) = 1 ∧
    Seg (pre ++ (M ++ post)) (truncateAroundHighlight (A ++ (pre ++ (M ++ (post ++ B))))
      maxChars pre post) := by
  set s := A ++ (pre ++ (M ++ (post ++ B))) with hsdef
  have hoccPre : leads pre (s.drop A.length) = true := by
    rw [hsdef, List.drop_left]
    exact leads_self pre _
  have hfPre : findSub pre s = some A.length := findSub_eq_of_unique hpre hcPre hoccPre
  have hafter : s.drop (A.length + pre.length) = M ++ (post ++ B) := by
    rw [hsdef, List.drop_append, List.drop_left]
  have hoccPost : leads post ((s.drop (A.length + pre.length)).drop M.length) = true := by
    rw [hafter, List.drop_left]
    exact leads_self post _
  have hcAfter : countOccs post (s.drop (A.length + pre.length)) = 1 := by
    apply le_antisymm
    · calc countOccs post (s.drop (A.length + pre.length))
          ≤ countOccs post s := countOccs_seg_le post
            ⟨s.take (A.length + pre.length), [],
              by rw [List.append_nil, List.take_append_drop]⟩
      _ = 1 := hcPost
    · exact countOccs_pos_of_occAt M.length hpost hoccPost
  have hfPost : findSub post (s.drop (A.length + pre.length)) = some M.length :=
    findSub_eq_of_unique hpost hcAfter hoccPost
  have hsx : s = A ++ ((pre ++ (M ++ post)) ++ B) := by
    rw [hsdef]
    simp [List.append_assoc]
  have hxne : pre ++ (M ++ post) ≠ [] := by
    cases pre with
    | nil => exact absurd rfl hpre
    | cons pc pr => simp
  obtain ⟨pc, pr, hpc⟩ := List.exists_cons_of_ne_nil hpre
  have hhead : ∃ xc xr, pre ++ (M ++ post) = xc :: xr ∧ wsChar xc = false := by
    refine ⟨pc, pr ++ (M ++ post), ?_, hpreWs pc (by rw [hpc]; simp)⟩
    rw [hpc]
    simp
  have hpostRevNe : post.reverse ≠ [] := by
    intro h
    have := congrArg List.reverse h
    rw [List.reverse_reverse] at this
    exact hpost (by simpa using this)
  obtain ⟨qc, qr, hqc⟩ := List.exists_cons_of_ne_nil hpostRevNe
  have hqmem : qc ∈ post := by
    have : qc ∈ post.reverse := by rw [hqc]; simp
    simpa using this
  have hlast : ∃ yc yr, (pre ++ (M ++ post)).reverse = yc :: yr ∧ wsChar yc = false := by
    refine ⟨qc, qr ++ (M.reverse ++ pre.reverse), ?_, hpostWs qc hqmem⟩
    rw [List.reverse_append, List.reverse_append, hqc]
    simp [List.append_assoc]
  have hEnd : A.length + pre.length + M.length + post.length =
      A.length + (pre ++ (M ++ post)).length := by
    simp only [List.length_append]
    omega
  have hred : truncateAroundHighlight s maxChars pre post =
      truncCore s maxChars A.length (A.length + (pre ++ (M ++ post)).length) := by
    simp only [truncateAroundHighlight]
    rw [if_neg (not_le.mpr hlong)]
    simp only [hfPre, hfPost]
    rw [hEnd]
  obtain ⟨mid, e1, e2, hout, he1, he2, hsegx, hsegmid⟩ :=
    truncCore_main s (pre ++ (M ++ post)) A B maxChars hsx hhead hlast
  rw [hred, hout]
  have hcount : ∀ pat : Str, pat ≠ [] → ('…' : Char) ∉ pat → Seg pat (pre ++ (M ++ post)) →
      countOccs pat s = 1 → countOccs pat (e1 ++ (mid ++ e2)) = 1 := by
    intro pat hne hell hsegpat hcnt
    have hpad1 : countOccs pat (e1 ++ (mid ++ e2)) = countOccs pat (mid ++ e2) := by
      rcases he1 with h | h
      · rw [h, List.nil_append]
      · rw [h]
        exact countOccs_cons_not_mem _ hne hell
    have hpad2 : countOccs pat (mid ++ e2) = countOccs pat mid := by
      apply countOccs_append_not_mem _ _ hne
      rcases he2 with h | h
      · rw [h]
        intro c hc
        cases hc
      · rw [h]
        intro c hc
        simp at hc
        rw [hc]
        exact hell
    rw [hpad1, hpad2]
    apply le_antisymm
    · calc countOccs pat mid ≤ countOccs pat s := countOccs_seg_le pat hsegmid
      _ = 1 := hcnt
    · exact countOccs_pos_of_seg hne (seg_trans hsegpat hsegx)
  refine ⟨?_, ?_, ?_⟩
  · exact hcount pre hpre hpreEll ⟨[], M ++ post, by simp⟩ hcPre
  · exact hcount post hpost hpostEll ⟨pre ++ M, [], by simp [List.append_assoc]⟩ hcPost
  · exact seg_trans hsegx (seg_of_append e1 mid e2)



/-- Claim C2 as stated is false on the code: it quantifies over every
over-budget input, but an input containing a second `pre_tag` occurrence
close behind the highlight keeps both occurrences in the output window
(`cexC2Input` yields two `<strong>`), and an input with no tag at all yields
none, so the output does not always contain exactly one occurrence of each
tag. -/
theorem claim2_counterexample :
    (10 : Nat) < cexC2Input.length ∧
    countOccs PRE_TAG (truncateAroundHighlight cexC2Input 10 PRE_TAG POST_TAG) ≠ 1 := by
  refine ⟨by decide, by decide⟩

theorem claim2_amended_witness :
    countOccs PRE_TAG (truncateAroundHighlight
      ("start text ".data ++ (PRE_TAG ++ ("match".data ++ (POST_TAG ++ " tail text".data))))
      10 PRE_TAG POST_TAG) = 1 ∧
    countOccs POST_TAG (truncateAroundHighlight
      ("start text ".data ++ (PRE_TAG ++ ("match".data ++ (POST_TAG ++ " tail text".data))))
      10 PRE_TAG POST_TAG) = 1 ∧
    Seg (PRE_TAG ++ ("match".data ++ POST_TAG)) (truncateAroundHighlight
      ("start text ".data ++ (PRE_TAG ++ ("match".data ++ (POST_TAG ++ " tail text".data))))
      10 PRE_TAG POST_TAG) :=
  claim2_amended "start text ".data "match".data " tail text".data PRE_TAG POST_TAG 10
    (by decide) (by decide) (by decide) (by decide) (by decide) (by decide)
    (by decide) (by decide) (by decide)


/-! ### C1 -/

theorem gatherCaptions_ok (deps : SearchDeps) (capsF : Str → List SearchResult) :
    ∀ vs : List Str, (∀ v ∈ vs, deps.captionsFor v = .ok (capsF v)) →
      gatherCaptions deps vs = .ok ((vs.map capsF).flatten) := by
  intro vs
  induction vs with
  | nil => intro _; rfl
  | cons v rest ih =>
    intro h
    have hv := h v (List.mem_cons_self v rest)
    have hrest := ih (fun w hw => h w (List.mem_cons_of_mem v hw))
    simp [gatherCaptions, hv, hrest]
    rfl

/-- Claim C1 as stated is false on the code: `search_captions_with_pagination`
propagates a per-video caption-fetch failure with `?` (line 111).  In
`depsCaptionFail` the count step and the id aggregation succeed and video
`a`'s captions fetch succeeds, yet the whole request returns an error because
video `b`'s captions fetch fails — the rest of the page is not returned. -/
theorem claim1_counterexample :
    depsCaptionFail.totalCounts = .ok (2, 3) ∧
    depsCaptionFail.pagedVideoIds = .ok ["a".data, "b".data] ∧
    isOkE (depsCaptionFail.captionsFor "a".data) = true ∧
    searchCaptionsWithPagination depsCaptionFail 0 2 = .error () :=
  ⟨rfl, rfl, rfl, rfl⟩

/-- Claim C1 amended: only the per-result neighbor fetch is recovered
locally — when counting, id aggregation and every per-video caption fetch
succeed, the request succeeds whatever the neighbor calls do, and a result
whose neighbor call fails keeps its anchor text (stitched with no neighbors,
then truncated).  A failing per-video caption fetch, like a failing top-level
aggregation/count step, errors the whole request. -/
theorem claim1_amended (deps : SearchDeps) (page pageSize tv tc : Nat)
    (vs : List Str) (capsF : Str → List SearchResult)
    (htot : deps.totalCounts = .ok (tv, tc))
    (hvids : deps.pagedVideoIds = .ok vs)
    (hcaps : ∀ v ∈ vs, deps.captionsFor v = .ok (capsF v)) :
    searchCaptionsWithPagination deps page pageSize =
      .ok { results := ((vs.map capsF).flatten).map (processResultSnippet deps),
            total_videos := tv,
            total_captions := tc,
            page := page,
            page_size := pageSize,
            total_pages := totalPagesF32 tv pageSize } ∧
    (∀ res : SearchResult,
      deps.neighborsFor res.video_id res.start_time res.end_time
          DEFAULT_NEIGHBORS_BEFORE DEFAULT_NEIGHBORS_AFTER = .error () →
      processResultSnippet deps res =
        { res with snippet_html :=
            (truncateAroundHighlight (stitchWithNeighborsEnhanced [] res.snippet_html [])
              MAX_COMBINED_CHARS PRE_TAG POST_TAG) }) := by
  constructor
  · have hstep : searchCaptionsWithPagination deps page pageSize =
        match gatherCaptions deps vs with
        | Except.error e => Except.error e
        | Except.ok results =>
          Except.ok { results := results.map (processResultSnippet deps),
                      total_videos := tv, total_captions := tc, page := page,
                      page_size := pageSize, total_pages := totalPagesF32 tv pageSize } := by
      unfold searchCaptionsWithPagination
      rw [htot, hvids]
    rw [hstep, gatherCaptions_ok deps capsF vs hcaps]
  · intro res hnb
    unfold processResultSnippet
    rw [hnb]
    rfl

/-! ### C3: comparator laws -/

theorem uint32ToNat_inj {a b : UInt32} (h : a.toNat = b.toNat) : a = b := by
  cases a; cases b
  simp only [UInt32.toNat] at h
  congr 1
  exact BitVec.eq_of_toNat_eq h

theorem charToNat_inj {a b : Char} (h : a.toNat = b.toNat) : a = b :=
  Char.ext (uint32ToNat_inj h)

theorem thenSwap (o₁ o₂ : Ordering) : (o₁.then o₂).swap = o₁.swap.then o₂.swap := by
  cases o₁ <;> rfl

theorem thenEqIff {o₁ o₂ : Ordering} : o₁.then o₂ = .eq ↔ (o₁ = .eq ∧ o₂ = .eq) := by
  cases o₁ <;> simp [Ordering.then]

theorem thenLtIff {o₁ o₂ : Ordering} :
    o₁.then o₂ = .lt ↔ (o₁ = .lt ∨ (o₁ = .eq ∧ o₂ = .lt)) := by
  cases o₁ <;> simp [Ordering.then]

theorem thenSelf (o : Ordering) : o.then o = o := by
  cases o <;> rfl

theorem qCmp_eq_iff {a b : ℚ} : qCmp a b = .eq ↔ a = b := by
  unfold qCmp
  split_ifs with h1 h2
  · constructor
    · intro h; cases h
    · intro h; subst h; exact absurd h1 (lt_irrefl a)
  · constructor
    · intro h; cases h
    · intro h; subst h; exact absurd h2 (lt_irrefl a)
  · exact ⟨fun _ => le_antisymm (not_lt.mp h2) (not_lt.mp h1), fun _ => rfl⟩

theorem qCmp_lt_iff {a b : ℚ} : qCmp a b = .lt ↔ a < b := by
  unfold qCmp
  split_ifs with h1 h2
  · exact ⟨fun _ => h1, fun _ => rfl⟩
  · constructor
    · intro h; cases h
    · intro h; exact absurd h h1
  · constructor
    · intro h; cases h
    · intro h; exact absurd h h1

theorem qCmp_swap (a b : ℚ) : qCmp b a = (qCmp a b).swap := by
  unfold qCmp
  rcases lt_trichotomy a b with h | h | h
  · rw [if_neg (asymm h), if_pos h, if_pos h]
    rfl
  · subst h
    rw [if_neg (lt_irrefl a), if_neg (lt_irrefl a)]
    rfl
  · rw [if_pos h, if_neg (asymm h), if_pos h]
    rfl

theorem lawCmp_qKey {α : Type} (f : α → ℚ) : LawCmp (fun a b => qCmp (f a) (f b)) := by
  refine ⟨fun a b => qCmp_swap (f a) (f b), ?_, ?_⟩
  · intro a b x h
    have heq : f a = f b := qCmp_eq_iff.mp h
    show qCmp (f a) (f x) = qCmp (f b) (f x)
    rw [heq]
  · intro a b x h1 h2
    exact qCmp_lt_iff.mpr (lt_trans (qCmp_lt_iff.mp h1) (qCmp_lt_iff.mp h2))

theorem lawCmp_qKeyDesc {α : Type} (f : α → ℚ) : LawCmp (fun a b => qCmp (f b) (f a)) := by
  refine ⟨fun a b => qCmp_swap (f b) (f a), ?_, ?_⟩
  · intro a b x h
    have heq : f b = f a := qCmp_eq_iff.mp h
    show qCmp (f x) (f a) = qCmp (f x) (f b)
    rw [heq]
  · intro a b x h1 h2
    exact qCmp_lt_iff.mpr (lt_trans (qCmp_lt_iff.mp h2) (qCmp_lt_iff.mp h1))

theorem charCmp_eq_iff {a b : Char} : charCmp a b = .eq ↔ a = b := by
  unfold charCmp
  split_ifs with h1 h2
  · constructor
    · intro h; cases h
    · intro h; subst h; omega
  · constructor
    · intro h; cases h
    · intro h; subst h; omega
  · exact ⟨fun _ => charToNat_inj (by omega), fun _ => rfl⟩

theorem charCmp_lt_iff {a b : Char} : charCmp a b = .lt ↔ a.toNat < b.toNat := by
  unfold charCmp
  split_ifs with h1 h2
  · exact ⟨fun _ => h1, fun _ => rfl⟩
  · constructor
    · intro h; cases h
    · intro h; exact absurd h h1
  · constructor
    · intro h; cases h
    · intro h; exact absurd h h1

theorem charCmp_swap (a b : Char) : charCmp b a = (charCmp a b).swap := by
  unfold charCmp
  split_ifs <;> simp_all [Ordering.swap] <;> omega

theorem lexCmp_swap : ∀ (x y : Str), lexCmp y x = (lexCmp x y).swap := by
  intro x
  induction x with
  | nil => intro y; cases y <;> rfl
  | cons a xs ih =>
    intro y
    cases y with
    | nil => rfl
    | cons b ys =>
      show (charCmp b a).then (lexCmp ys xs) = ((charCmp a b).then (lexCmp xs ys)).swap
      rw [thenSwap, charCmp_swap, ih]

theorem lexCmp_eq_iff : ∀ {x y : Str}, lexCmp x y = .eq ↔ x = y := by
  intro x
  induction x with
  | nil =>
    intro y
    cases y with
    | nil => simp [lexCmp]
    | cons b ys => simp [lexCmp]
  | cons a xs ih =>
    intro y
    cases y with
    | nil => simp [lexCmp]
    | cons b ys =>
      show (charCmp a b).then (lexCmp xs ys) = .eq ↔ _
      rw [thenEqIff, charCmp_eq_iff, ih]
      simp

theorem lexCmp_lt_trans : ∀ {x y z : Str},
    lexCmp x y = .lt → lexCmp y z = .lt → lexCmp x z = .lt := by
  intro x
  induction x with
  | nil =>
    intro y z h1 h2
    cases y with
    | nil => cases h1
    | cons b ys =>
      cases z with
      | nil => cases h2
      | cons c zs => rfl
  | cons a xs ih =>
    intro y z h1 h2
    cases y with
    | nil => cases h1
    | cons b ys =>
      cases z with
      | nil => cases h2
      | cons c zs =>
        rw [show lexCmp (a :: xs) (b :: ys) = (charCmp a b).then (lexCmp xs ys) from rfl,
          thenLtIff] at h1
        rw [show lexCmp (b :: ys) (c :: zs) = (charCmp b c).then (lexCmp ys zs) from rfl,
          thenLtIff] at h2
        rw [show lexCmp (a :: xs) (c :: zs) = (charCmp a c).then (lexCmp xs zs) from rfl,
          thenLtIff]
        rcases h1 with h1 | ⟨h1, h1'⟩
        · rcases h2 with h2 | ⟨h2, h2'⟩
          · exact Or.inl (charCmp_lt_iff.mpr
              (lt_trans (charCmp_lt_iff.mp h1) (charCmp_lt_iff.mp h2)))
          · rw [← charCmp_eq_iff.mp h2]
            exact Or.inl h1
        · rcases h2 with h2 | ⟨h2, h2'⟩
          · rw [charCmp_eq_iff.mp h1]
            exact Or.inl h2
          · rw [charCmp_eq_iff.mp h1]
            exact Or.inr ⟨h2, ih h1' h2'⟩

theorem lawCmp_lexKey {α : Type} (f : α → Str) :
    LawCmp (fun a b => lexCmp (f a) (f b)) := by
  refine ⟨fun a b => lexCmp_swap (f a) (f b), ?_, ?_⟩
  · intro a b x h
    have heq : f a = f b := lexCmp_eq_iff.mp h
    show lexCmp (f a) (f x) = lexCmp (f b) (f x)
    rw [heq]
  · intro a b x h1 h2
    exact lexCmp_lt_trans h1 h2

theorem lawCmp_then {α : Type} {c₁ c₂ : α → α → Ordering}
    (h₁ : LawCmp c₁) (h₂ : LawCmp c₂) :
    LawCmp (fun a b => (c₁ a b).then (c₂ a b)) := by
  obtain ⟨s₁, e₁, t₁⟩ := h₁
  obtain ⟨s₂, e₂, t₂⟩ := h₂
  refine ⟨?_, ?_, ?_⟩
  · intro a b
    simp only
    rw [s₁, s₂, thenSwap]
  · intro a b x h
    simp only at h ⊢
    rw [thenEqIff] at h
    rw [e₁ a b x h.1, e₂ a b x h.2]
  · intro a b x hab hbx
    simp only at hab hbx ⊢
    rw [thenLtIff] at hab hbx ⊢
    rcases hab with h1 | ⟨h1, h1'⟩
    · rcases hbx with h2 | ⟨h2, h2'⟩
      · exact Or.inl (t₁ a b x h1 h2)
      · left
        have hxa : c₁ x a = c₁ b a := (e₁ b x a h2).symm
        rw [s₁ x a, hxa, s₁ a b, Ordering.swap_swap]
        exact h1
    · rcases hbx with h2 | ⟨h2, h2'⟩
      · left
        rw [e₁ a b x h1]
        exact h2
      · right
        exact ⟨by rw [e₁ a b x h1]; exact h2, t₂ a b x h1' h2'⟩

theorem lawCmp_cwofKey {α : Type} (f : α → ℚ) (ord : SortOrder) :
    LawCmp (fun a b => compareWithOrderFloat (f a) (f b) ord) := by
  cases ord
  · exact lawCmp_qKey f
  · exact lawCmp_qKeyDesc f

theorem lawCmp_videoCmp (opts : SearchOptions) : LawCmp (videoCmp opts) := by
  obtain ⟨st, fz, sb, so⟩ := opts
  cases sb <;>
    first
    | exact lawCmp_then (lawCmp_cwofKey (fun v : VideoSortData => v.avg_score) so)
        (lawCmp_lexKey (fun v => v.video_id))
    | exact lawCmp_then (lawCmp_cwofKey _ so)
        (lawCmp_then (lawCmp_cwofKey (fun v : VideoSortData => v.avg_score) .Desc)
          (lawCmp_lexKey (fun v => v.video_id)))

theorem videoCmp_eq_vid (opts : SearchOptions) (a b : VideoSortData)
    (h : videoCmp opts a b = .eq) : a.video_id = b.video_id := by
  obtain ⟨st, fz, sb, so⟩ := opts
  cases sb <;>
    (simp only [videoCmp, thenEqIff] at h
     exact lexCmp_eq_iff.mp (by tauto))

theorem videoCmp_eq_specRankChain (opts : SearchOptions) (a b : VideoSortData) :
    videoCmp opts a b = specRankChain opts a b := by
  obtain ⟨st, fz, sb, so⟩ := opts
  cases sb <;> simp [videoCmp, specRankChain, primaryCmp, secondaryCmp, thenSelf]

/-- Claim C3: the candidate sort's comparator is exactly the chain — primary
the requested `sort_by` field per `sort_order`; secondary `avg_score`
descending except `video_id` ascending under `Relevance`; tertiary `video_id`
ascending — and it is swap-antisymmetric, only ties entries with equal
`video_id`, and is transitive, so on candidate sets with pairwise-distinct
ids it is a total order and the ranked output of identical runs is unique
(the model itself is a pure function, so re-running it is literally the same
value; the total-order property is what makes this stable in the source). -/
theorem claim3_rank_comparator_total_order (opts : SearchOptions)
    (a b c : VideoSortData) :
    videoCmp opts a b = specRankChain opts a b ∧
    videoCmp opts b a = (videoCmp opts a b).swap ∧
    (videoCmp opts a b = .eq → a.video_id = b.video_id) ∧
    (videoCmp opts a b = .lt → videoCmp opts b c = .lt → videoCmp opts a c = .lt) :=
  ⟨videoCmp_eq_specRankChain opts a b,
   (lawCmp_videoCmp opts).1 a b,
   videoCmp_eq_vid opts a b,
   fun h1 h2 => (lawCmp_videoCmp opts).2.2 a b c h1 h2⟩

theorem claim3_witness :
    vRankA.video_id = vRankA.video_id ∧
    videoCmp (SearchOptions.natural .Relevance .Desc) vRankA vRankC = .lt :=
  ⟨(claim3_rank_comparator_total_order (SearchOptions.natural .Relevance .Desc)
      vRankA vRankA vRankA).2.2.1 (by decide),
   (claim3_rank_comparator_total_order (SearchOptions.natural .Relevance .Desc)
      vRankA vRankB vRankC).2.2.2 (by decide) (by decide)⟩

/-! ### C4: pagination completeness -/

theorem chunksConcat {α : Type} (ps : Nat) (hps : 1 ≤ ps) :
    ∀ (n : Nat) (m : List α), m.length ≤ n →
      ((List.range (ceilDiv m.length ps)).map
        (fun p => (m.drop (p * ps)).take ps)).flatten = m := by
  intro n
  induction n with
  | zero =>
    intro m hm
    have hnil : m = [] := List.eq_nil_of_length_eq_zero (Nat.le_zero.mp hm)
    subst hnil
    simp [ceilDiv, Nat.div_eq_of_lt (by omega : ps - 1 < ps)]
  | succ n ih =>
    intro m hm
    cases hml : m.length with
    | zero =>
      have hnil : m = [] := List.eq_nil_of_length_eq_zero hml
      subst hnil
      simp [ceilDiv, Nat.div_eq_of_lt (by omega : ps - 1 < ps)]
    | succ k =>
      have hceil : ceilDiv (k + 1) ps = k / ps + 1 := by
        unfold ceilDiv
        rw [show k + 1 + ps - 1 = k + ps by omega]
        exact Nat.add_div_right k (by omega)
      have hkdiv : k / ps = ceilDiv (m.drop ps).length ps := by
        rw [List.length_drop, hml]
        unfold ceilDiv
        rcases le_or_lt (k + 1) ps with hle | hgt
        · rw [show k + 1 - ps = 0 by omega,
            Nat.div_eq_of_lt (by omega : k < ps),
            Nat.div_eq_of_lt (by omega : 0 + ps - 1 < ps)]
        · rw [show k + 1 - ps + ps - 1 = k by omega]
      have hfun : ∀ p ∈ List.range (k / ps),
          (m.drop (Nat.succ p * ps)).take ps =
            ((m.drop ps).drop (p * ps)).take ps := by
        intro p _
        rw [List.drop_drop, Nat.succ_mul, Nat.add_comm (p * ps) ps]
      rw [hceil, List.range_succ_eq_map, List.map_cons, List.map_map]
      rw [show ((fun p => (m.drop (p * ps)).take ps) ∘ Nat.succ) =
        (fun p => (m.drop (Nat.succ p * ps)).take ps) from rfl]
      rw [List.map_congr_left hfun]
      rw [List.flatten_cons]
      have hlen : (m.drop ps).length ≤ n := by
        rw [List.length_drop]
        omega
      rw [hkdiv, ih (m.drop ps) hlen]
      simp [List.take_append_drop]

/-- Claim C4: pagination is `skip(page * page_size).take(page_size)` over the
sorted candidates (that is the definition `getPaginatedVideoIdsPure` carries
from the source), and concatenating the pages `0 … ⌈candidates/page_size⌉ - 1`
returns exactly the full ranked candidate id list — no video duplicated,
none omitted — for every `page_size ≥ 1`. -/
theorem claim4_pagination_complete (opts : SearchOptions)
    (videoData : List VideoSortData) (pageSize : Nat) (hps : 1 ≤ pageSize) :
    ((List.range (ceilDiv (sortVideos opts videoData).length pageSize)).map
        (fun page =>
          getPaginatedVideoIdsPure opts videoData (page * pageSize) pageSize)).flatten
      = (sortVideos opts videoData).map (fun d => d.video_id) := by
  have key := chunksConcat pageSize hps
    ((sortVideos opts videoData).map (fun d => d.video_id)).length
    ((sortVideos opts videoData).map (fun d => d.video_id)) le_rfl
  rw [List.length_map] at key
  have hpage : ∀ p ∈ List.range (ceilDiv (sortVideos opts videoData).length pageSize),
      getPaginatedVideoIdsPure opts videoData (p * pageSize) pageSize =
        (((sortVideos opts videoData).map (fun d => d.video_id)).drop
          (p * pageSize)).take pageSize := by
    intro p _
    unfold getPaginatedVideoIdsPure
    rw [List.map_take, List.map_drop]
  rw [List.map_congr_left hpage]
  exact key

theorem claim4_witness :
    ((List.range (ceilDiv
        (sortVideos (SearchOptions.natural .Relevance .Desc) [vRankB, vRankA]).length 1)).map
        (fun page => getPaginatedVideoIdsPure (SearchOptions.natural .Relevance .Desc)
          [vRankB, vRankA] (page * 1) 1)).flatten
      = (sortVideos (SearchOptions.natural .Relevance .Desc) [vRankB, vRankA]).map
          (fun d => d.video_id) :=
  claim4_pagination_complete (SearchOptions.natural .Relevance .Desc) [vRankB, vRankA] 1
    (by decide)

/-! ### C8: neighbor selection -/

/-- Claim C8: when some caption of the window starts within 0.1s of the
anchor start, the source returns the up-to-`before` captions immediately
preceding and the up-to-`after` captions immediately following the first
such caption by array position; otherwise it returns the last `before`
captions starting strictly before `anchor_start` and the first `after`
captions starting strictly after `anchor_end`. -/
theorem claim8_neighbor_selection (allCaptions : List Caption)
    (anchorStart anchorEnd : ℚ) (before after : Nat)
    (hsorted : allCaptions.Pairwise (fun c d => c.start_time ≤ d.start_time)) :
    (∀ i, allCaptions.findIdx? (fun c => |c.start_time - anchorStart| < 1/10) = some i →
      fetchNeighborsCore allCaptions anchorStart anchorEnd before after =
        ((allCaptions.take i).drop (i - before), (allCaptions.drop (i + 1)).take after)) ∧
    (allCaptions.findIdx? (fun c => |c.start_time - anchorStart| < 1/10) = none →
      fetchNeighborsCore allCaptions anchorStart anchorEnd before after =
        ((allCaptions.filter (fun c => c.start_time < anchorStart)).drop
           ((allCaptions.filter (fun c => c.start_time < anchorStart)).length - before),
         (allCaptions.filter (fun c => anchorEnd < c.start_time)).take after)) := by
  clear hsorted
  constructor
  · intro i hidx
    unfold fetchNeighborsCore slice
    rw [hidx]
    refine congrArg₂ Prod.mk ?_ ?_
    · rw [List.drop_take]
    · rcases le_or_lt (i + 1 + after) allCaptions.length with hle | hgt
      · rw [min_eq_left hle]
        congr 1
        omega
      · rw [min_eq_right (by omega)]
        have h1 : (allCaptions.drop (i + 1)).take (allCaptions.length - (i + 1)) =
            allCaptions.drop (i + 1) :=
          List.take_of_length_le (by rw [List.length_drop])
        have h2 : (allCaptions.drop (i + 1)).take after = allCaptions.drop (i + 1) :=
          List.take_of_length_le (by rw [List.length_drop]; omega)
        rw [h1, h2]
  · intro hidx
    unfold fetchNeighborsCore
    rw [hidx]
    refine congrArg₂ Prod.mk ?_ ?_
    · split_ifs with h
      · rfl
      · rw [Nat.sub_eq_zero_of_le (by omega), List.drop_zero]
    · split_ifs with h
      · rfl
      · rw [List.take_of_length_le (by omega)]

theorem claim8_witness :
    fetchNeighborsCore [capWin 0, capWin 2, capWin 4, capWin 6, capWin 8] 4 6 2 2 =
      (([capWin 0, capWin 2, capWin 4, capWin 6, capWin 8].take 2).drop (2 - 2),
       ([capWin 0, capWin 2, capWin 4, capWin 6, capWin 8].drop (2 + 1)).take 2) := by
  have hidx : [capWin 0, capWin 2, capWin 4, capWin 6, capWin 8].findIdx?
      (fun c => |c.start_time - 4| < 1/10) = some 2 := by
    norm_num [List.findIdx?_cons, capWin, abs_sub_lt_iff]
  exact (claim8_neighbor_selection [capWin 0, capWin 2, capWin 4, capWin 6, capWin 8]
    4 6 2 2 (by norm_num [List.pairwise_cons, capWin])).1 2 hidx

theorem claim1_amended_witness :
    isOkE (searchCaptionsWithPagination depsNeighborFail 0 2) = true ∧
    processResultSnippet depsNeighborFail resAnchor =
      { resAnchor with snippet_html :=
          (truncateAroundHighlight (stitchWithNeighborsEnhanced [] resAnchor.snippet_html [])
            MAX_COMBINED_CHARS PRE_TAG POST_TAG) } := by
  have h := claim1_amended depsNeighborFail 0 2 1 1 ["a".data] (fun _ => [resAnchor])
    rfl rfl (by intro v _; rfl)
  exact ⟨by rw [h.1]; rfl, h.2 resAnchor rfl⟩

end Starchive
